import Mathlib

/-
  Verification development for the parking-lot multi-agent simulation core.

  The Lean definitions below are shallow embeddings of the Python source:

  * `backend/generator/cell.py`        -> `CellType`, `CellType.isDrivable`
  * `backend/generator/grid.py`        -> `Grid`, `Grid.inBounds`
  * `backend/planning/reservation_table.py` -> `ReservationTable` and its operations
  * `backend/planning/single_agent_planner.py` -> `manhattan`, `singleAgentAStar`
  * `backend/core/simulation_core.py`  -> conflict resolution, tick skeleton, escalations
  * `backend/core/parking_manager.py`  -> parking-slot bookkeeping transitions

  Python `int` is modelled as `ℤ` (or `ℕ` where the source value is a time or a
  count that is always non-negative), Python `set` as `Finset`, Python `dict`
  as an insertion-ordered association list or as a function updated pointwise.
  While-loops are modelled with explicit fuel; theorems show the fuel bounds
  suffice wherever a claim needs the loop's exit state.
-/

namespace ParkingSim

/-- Grid position, `(x, y)` as in the Python tuples. -/
abbrev Pos := ℤ × ℤ

/-- Timed position `(x, y, t)` as produced by the planner. -/
abbrev TPos := ℤ × ℤ × ℕ

/-- Cell kinds, from `generator/cell.py` (`class CellType(Enum)`). -/
inductive CellType where
  | ROAD
  | PARKING
  | WALL
  | ENTRY
  | EXIT
deriving DecidableEq, Repr

/-- `Cell.is_drivable` from `generator/cell.py`: drivable iff the type is one of
ROAD, PARKING, ENTRY, EXIT. -/
def CellType.isDrivable : CellType → Bool
  | .WALL => false
  | _ => true

/-- The grid, from `generator/grid.py`: dimensions plus the `cells[x][y].type`
array, modelled as a function. -/
structure Grid where
  width : ℤ
  height : ℤ
  cellType : ℤ → ℤ → CellType

/-- `Grid.in_bounds` from `generator/grid.py`. -/
def Grid.inBounds (g : Grid) (x y : ℤ) : Bool :=
  decide (0 ≤ x) && decide (x < g.width) && decide (0 ≤ y) && decide (y < g.height)

/-- `manhattan` from `planning/single_agent_planner.py`:
`abs(a[0]-b[0]) + abs(a[1]-b[1])`. -/
def manhattan (a b : Pos) : ℤ :=
  |a.1 - b.1| + |a.2 - b.2|

/-! ### Reservation table (`planning/reservation_table.py`) -/

/-- The space-time reservation table: three independent sets, exactly the three
Python `set()` fields of `ReservationTable.__init__`. -/
structure ReservationTable where
  vertexRes : Finset TPos
  edgeRes : Finset (ℤ × ℤ × ℤ × ℤ × ℕ)
  staticCells : Finset Pos
deriving DecidableEq

/-- `ReservationTable.is_cell_free`. -/
def ReservationTable.isCellFree (rt : ReservationTable) (x y : ℤ) (t : ℕ) : Bool :=
  decide ((x, y) ∉ rt.staticCells) && decide ((x, y, t) ∉ rt.vertexRes)

/-- `ReservationTable.is_edge_free`: false if either directional tuple is present. -/
def ReservationTable.isEdgeFree (rt : ReservationTable) (x1 y1 x2 y2 : ℤ) (t : ℕ) : Bool :=
  decide ((x1, y1, x2, y2, t) ∉ rt.edgeRes) && decide ((x2, y2, x1, y1, t) ∉ rt.edgeRes)

/-- Helper for the edge tuple inserted by `reserve_path`: from the previous
element `(px, py, pt)` to the current `(x, y, t)` the code adds
`(px, py, x, y, pt)`. -/
def edgeTuple (p q : TPos) : ℤ × ℤ × ℤ × ℤ × ℕ :=
  (p.1, p.2.1, q.1, q.2.1, p.2.2)

/-- Loop body of `ReservationTable.reserve_path`: walk the path keeping the
previous element (Python's `path[i-1]` for `i > 0`), adding each vertex and
each edge tuple. -/
def reservePathAux (rt : ReservationTable) : Option TPos → List TPos → ReservationTable
  | _, [] => rt
  | prev, p :: rest =>
    let rt1 : ReservationTable := { rt with vertexRes := insert p rt.vertexRes }
    let rt2 : ReservationTable :=
      match prev with
      | none => rt1
      | some q => { rt1 with edgeRes := insert (edgeTuple q p) rt1.edgeRes }
    reservePathAux rt2 (some p) rest

/-- `ReservationTable.reserve_path`. -/
def ReservationTable.reservePath (rt : ReservationTable) (path : List TPos) : ReservationTable :=
  reservePathAux rt none path

/-- Loop body of `ReservationTable.unreserve_path` (`set.discard` on each
vertex and edge tuple). -/
def unreservePathAux (rt : ReservationTable) : Option TPos → List TPos → ReservationTable
  | _, [] => rt
  | prev, p :: rest =>
    let rt1 : ReservationTable := { rt with vertexRes := rt.vertexRes.erase p }
    let rt2 : ReservationTable :=
      match prev with
      | none => rt1
      | some q => { rt1 with edgeRes := rt1.edgeRes.erase (edgeTuple q p) }
    unreservePathAux rt2 (some p) rest

/-- `ReservationTable.unreserve_path`. -/
def ReservationTable.unreservePath (rt : ReservationTable) (path : List TPos) : ReservationTable :=
  unreservePathAux rt none path

/-- `ReservationTable.reserve_goal`: only the static set is touched. -/
def ReservationTable.reserveGoal (rt : ReservationTable) (x y : ℤ) : ReservationTable :=
  { rt with staticCells := insert (x, y) rt.staticCells }

/-- `ReservationTable.unreserve_goal`. -/
def ReservationTable.unreserveGoal (rt : ReservationTable) (x y : ℤ) : ReservationTable :=
  { rt with staticCells := rt.staticCells.erase (x, y) }

/-- Edge tuples contributed by a path whose previous element is `q`. -/
def pathEdgesFrom : TPos → List TPos → List (ℤ × ℤ × ℤ × ℤ × ℕ)
  | _, [] => []
  | q, p :: rest => edgeTuple q p :: pathEdgesFrom p rest

/-- The list of edge tuples a path contributes: one per consecutive pair. -/
def pathEdges : List TPos → List (ℤ × ℤ × ℤ × ℤ × ℕ)
  | [] => []
  | p :: rest => pathEdgesFrom p rest

lemma reservePathAux_vertex (path : List TPos) :
    ∀ (prev : Option TPos) (rt : ReservationTable),
      (reservePathAux rt prev path).vertexRes = rt.vertexRes ∪ path.toFinset := by
  induction path with
  | nil => intro prev rt; simp [reservePathAux]
  | cons p rest ih =>
      intro prev rt
      cases prev with
      | none =>
          simp only [reservePathAux, ih, List.toFinset_cons]
          ext a; simp
          try tauto
      | some q =>
          simp only [reservePathAux, ih, List.toFinset_cons]
          ext a; simp
          try tauto

lemma reservePathAux_edge (path : List TPos) :
    ∀ (q : TPos) (rt : ReservationTable),
      (reservePathAux rt (some q) path).edgeRes
        = rt.edgeRes ∪ (pathEdgesFrom q path).toFinset := by
  induction path with
  | nil => intro q rt; simp [reservePathAux, pathEdgesFrom]
  | cons p rest ih =>
      intro q rt
      simp only [reservePathAux, ih, pathEdgesFrom, List.toFinset_cons]
      ext a; simp
      try tauto

lemma reservePath_vertex (rt : ReservationTable) (path : List TPos) :
    (rt.reservePath path).vertexRes = rt.vertexRes ∪ path.toFinset :=
  reservePathAux_vertex path none rt

lemma reservePath_edge (rt : ReservationTable) (path : List TPos) :
    (rt.reservePath path).edgeRes = rt.edgeRes ∪ (pathEdges path).toFinset := by
  cases path with
  | nil => simp [ReservationTable.reservePath, reservePathAux, pathEdges]
  | cons p rest =>
      simp only [ReservationTable.reservePath, reservePathAux, pathEdges]
      exact reservePathAux_edge rest p _

lemma reservePathAux_static (path : List TPos) :
    ∀ (prev : Option TPos) (rt : ReservationTable),
      (reservePathAux rt prev path).staticCells = rt.staticCells := by
  induction path with
  | nil => intro prev rt; simp [reservePathAux]
  | cons p rest ih => intro prev rt; cases prev <;> simp [reservePathAux, ih]

lemma unreservePathAux_vertex (path : List TPos) :
    ∀ (prev : Option TPos) (rt : ReservationTable),
      (unreservePathAux rt prev path).vertexRes = rt.vertexRes \ path.toFinset := by
  induction path with
  | nil => intro prev rt; simp [unreservePathAux]
  | cons p rest ih =>
      intro prev rt
      cases prev with
      | none =>
          simp only [unreservePathAux, ih, List.toFinset_cons]
          ext a; simp
          try tauto
      | some q =>
          simp only [unreservePathAux, ih, List.toFinset_cons]
          ext a; simp
          try tauto

lemma unreservePathAux_edge (path : List TPos) :
    ∀ (q : TPos) (rt : ReservationTable),
      (unreservePathAux rt (some q) path).edgeRes
        = rt.edgeRes \ (pathEdgesFrom q path).toFinset := by
  induction path with
  | nil => intro q rt; simp [unreservePathAux, pathEdgesFrom]
  | cons p rest ih =>
      intro q rt
      simp only [unreservePathAux, ih, pathEdgesFrom, List.toFinset_cons]
      ext a; simp
      try tauto

lemma unreservePath_vertex (rt : ReservationTable) (path : List TPos) :
    (rt.unreservePath path).vertexRes = rt.vertexRes \ path.toFinset :=
  unreservePathAux_vertex path none rt

lemma unreservePath_edge (rt : ReservationTable) (path : List TPos) :
    (rt.unreservePath path).edgeRes = rt.edgeRes \ (pathEdges path).toFinset := by
  cases path with
  | nil => simp [ReservationTable.unreservePath, unreservePathAux, pathEdges]
  | cons p rest =>
      simp only [ReservationTable.unreservePath, unreservePathAux, pathEdges]
      exact unreservePathAux_edge rest p _

lemma unreservePathAux_static (path : List TPos) :
    ∀ (prev : Option TPos) (rt : ReservationTable),
      (unreservePathAux rt prev path).staticCells = rt.staticCells := by
  induction path with
  | nil => intro prev rt; simp [unreservePathAux]
  | cons p rest ih => intro prev rt; cases prev <;> simp [unreservePathAux, ih]

/-- C4 counterexample input: a table that already holds the vertex `(0, 0, 0)`. -/
def c4Table : ReservationTable :=
  { vertexRes := {((0 : ℤ), (0 : ℤ), (0 : ℕ))}, edgeRes := ∅, staticCells := ∅ }

/-- C4 counterexample path: the single timed position `(0, 0, 0)`. -/
def c4Path : List TPos := [((0 : ℤ), (0 : ℤ), (0 : ℕ))]

/-- C4 (counterexample): `reserve_path(p); unreserve_path(p)` does not restore a
table whose vertex set already contained an element of `p` — `discard` removes
the pre-existing reservation. -/
theorem reserve_unreserve_not_inverse :
    (c4Table.reservePath c4Path).unreservePath c4Path ≠ c4Table := by
  intro h
  have hv : ((c4Table.reservePath c4Path).unreservePath c4Path).vertexRes = c4Table.vertexRes :=
    congrArg ReservationTable.vertexRes h
  rw [unreservePath_vertex, reservePath_vertex] at hv
  revert hv
  decide

/-- C4 (amended): if none of the path's vertex triples and none of its edge
tuples are already present in the table, then `reserve_path(p)` followed by
`unreserve_path(p)` leaves the table (vertex, edge and static sets) unchanged. -/
theorem reserve_unreserve_roundtrip (rt : ReservationTable) (path : List TPos)
    (hv : Disjoint rt.vertexRes path.toFinset)
    (he : Disjoint rt.edgeRes (pathEdges path).toFinset) :
    (rt.reservePath path).unreservePath path = rt := by
  have h1 : ((rt.reservePath path).unreservePath path).vertexRes = rt.vertexRes := by
    rw [unreservePath_vertex, reservePath_vertex, Finset.union_sdiff_cancel_right]
    exact hv
  have h2 : ((rt.reservePath path).unreservePath path).edgeRes = rt.edgeRes := by
    rw [unreservePath_edge, reservePath_edge, Finset.union_sdiff_cancel_right]
    exact he
  have h3 : ((rt.reservePath path).unreservePath path).staticCells = rt.staticCells := by
    rw [ReservationTable.unreservePath, unreservePathAux_static,
      ReservationTable.reservePath, reservePathAux_static]
  cases h : (rt.reservePath path).unreservePath path
  cases rt
  simp_all

/-- C4 witness: the round-trip theorem applied at a concrete fresh path. -/
theorem reserve_unreserve_roundtrip_witness :
    (((⟨∅, ∅, ∅⟩ : ReservationTable).reservePath
        [((0 : ℤ), (0 : ℤ), (0 : ℕ)), ((0 : ℤ), (1 : ℤ), (1 : ℕ))]).unreservePath
        [((0 : ℤ), (0 : ℤ), (0 : ℕ)), ((0 : ℤ), (1 : ℤ), (1 : ℕ))])
      = (⟨∅, ∅, ∅⟩ : ReservationTable) :=
  reserve_unreserve_roundtrip _ _ (by simp) (by simp)

/-! ### Single-agent space-time A-star (`planning/single_agent_planner.py`)

The Python code packs a node `(x, y, t)` into the integer key
`t * area + x * height + y` and unpacks it with two `divmod`s; the open set is
a binary heap of triples `(f, g, key)` ordered lexicographically.  All entries
ever pushed are pairwise distinct (each push strictly lowers the key's g), so
`heappop` returns the unique lexicographic minimum; the heap is therefore
modelled as a plain list with a pop-minimum operation.  The unbounded
`while open_set:` loop is given explicit fuel; on fuel exhaustion the model
returns `none`, which is sound for every property proved below. -/

/-- `t, idx = divmod(key, area)`: the time component of a packed key. -/
def keyT (area k : ℕ) : ℕ := k / area

/-- `x, y = divmod(idx, height)`: the x component of a packed key. -/
def keyX (area h k : ℕ) : ℕ := (k % area) / h

/-- The y component of a packed key. -/
def keyY (area h k : ℕ) : ℕ := (k % area) % h

/-- The spatial position a packed key decodes to. -/
def keyPos (area h k : ℕ) : Pos := ((keyX area h k : ℤ), (keyY area h k : ℤ))

/-- `(x, y, t)` as appended by `_reconstruct_path_packed`. -/
def unpackTPos (area h k : ℕ) : TPos :=
  ((keyX area h k : ℤ), (keyY area h k : ℤ), keyT area k)

/-- `neighbor_key = nt * area + (nx * height + ny)`. -/
def packKey (area h t : ℕ) (x y : ℤ) : ℕ := t * area + (x.toNat * h + y.toNat)

/-- Lexicographic comparison of heap entries `(f, g, key)`, as Python compares
tuples. -/
def tripleLt (a b : ℕ × ℕ × ℕ) : Bool :=
  decide (a.1 < b.1) ||
    (decide (a.1 = b.1) &&
      (decide (a.2.1 < b.2.1) || (decide (a.2.1 = b.2.1) && decide (a.2.2 < b.2.2))))

/-- `heappop`: return the lexicographically least entry and the rest of the
heap contents. -/
def popMin (l : List (ℕ × ℕ × ℕ)) : Option ((ℕ × ℕ × ℕ) × List (ℕ × ℕ × ℕ)) :=
  match l with
  | [] => none
  | x :: xs =>
    let m := xs.foldl (fun b a => if tripleLt a b then a else b) x
    some (m, l.erase m)

/-- Fixed inputs of one `single_agent_a_star` call. -/
structure AStarCtx where
  g : Grid
  rt : ReservationTable
  obstacles : Finset Pos
  start : Pos
  goal : Pos
  startTime : ℕ
  maxTime : ℕ
  persistUntil : ℕ
  area : ℕ
  h : ℕ

/-- The per-neighbor guard chain of the A-star expansion (the sequence of
`continue` checks on lines 133-161 of `single_agent_planner.py`), as one
boolean conjunction in source order: in bounds; not WALL; EXIT only if goal;
ENTRY only if start or goal; not an ephemeral obstacle still in force; vertex
free; edge free in both directions. -/
def neighborAdmissible (c : AStarCtx) (x y : ℤ) (t : ℕ) (nx ny : ℤ) : Bool :=
  c.g.inBounds nx ny &&
  !(decide (c.g.cellType nx ny = CellType.WALL)) &&
  !(decide (c.g.cellType nx ny = CellType.EXIT) && decide ((nx, ny) ≠ c.goal)) &&
  !(decide (c.g.cellType nx ny = CellType.ENTRY) && decide ((nx, ny) ≠ c.start) &&
      decide ((nx, ny) ≠ c.goal)) &&
  !(decide c.obstacles.Nonempty && decide ((nx, ny) ∈ c.obstacles) &&
      decide (t + 1 < c.persistUntil)) &&
  !(decide ((nx, ny) ∈ c.rt.staticCells) || decide ((nx, ny, t + 1) ∈ c.rt.vertexRes)) &&
  !(decide ((x, y, nx, ny, t) ∈ c.rt.edgeRes) || decide ((nx, ny, x, y, t) ∈ c.rt.edgeRes))

/-- The ephemeral-obstacle guard in isolation (line 152 of the source):
`additional_obstacles and (nx, ny) in additional_obstacles and nt < persist_until_t`. -/
def ephemeralBlocked (obstacles : Finset Pos) (persistUntil : ℕ) (npos : Pos) (nt : ℕ) : Bool :=
  decide obstacles.Nonempty && decide (npos ∈ obstacles) && decide (nt < persistUntil)

/-- Mutable search state: the open heap, `g_score` and `came_from`. -/
structure AStarState where
  openSet : List (ℕ × ℕ × ℕ)
  gScore : ℕ → Option ℕ
  cameFrom : ℕ → Option ℕ

/-- The five moves `((0,1), (0,-1), (1,0), (-1,0), (0,0))`. -/
def moves : List (ℤ × ℤ) := [(0, 1), (0, -1), (1, 0), (-1, 0), (0, 0)]

/-- Expansion of one neighbor `(x+dx, y+dy)` of the popped node: the guard
chain, then the standard relaxation pushing `(f, tentative_g, neighbor_key)`. -/
def expandMove (c : AStarCtx) (key gv : ℕ) (x y : ℤ) (t : ℕ)
    (st : AStarState) (d : ℤ × ℤ) : AStarState :=
  let nx := x + d.1
  let ny := y + d.2
  let nt := t + 1
  if neighborAdmissible c x y t nx ny then
    let nkey := packKey c.area c.h nt nx ny
    let tg := gv + 1
    let ok := match st.gScore nkey with
      | some pg => decide (tg < pg)
      | none => true
    if ok then
      { openSet := (tg + (|nx - c.goal.1| + |ny - c.goal.2|).toNat, tg, nkey) :: st.openSet,
        gScore := Function.update st.gScore nkey (some tg),
        cameFrom := Function.update st.cameFrom nkey (some key) }
    else st
  else st

/-- `while cur in came_from:` walk of `_reconstruct_path_packed`, built directly
in root-first order.  The fuel is an upper bound on the chain length; parents
have strictly smaller keys, so fuel equal to the key itself always suffices. -/
def reconstructKeys (cameFrom : ℕ → Option ℕ) : ℕ → ℕ → List ℕ
  | 0, cur => [cur]
  | fuel + 1, cur =>
    match cameFrom cur with
    | none => [cur]
    | some p => reconstructKeys cameFrom fuel p ++ [cur]

/-- `_reconstruct_path_packed`: unwind `came_from` from the goal key and unpack
every key on the chain. -/
def reconstructPathPacked (cameFrom : ℕ → Option ℕ) (goalKey area h : ℕ) : List TPos :=
  (reconstructKeys cameFrom goalKey goalKey).map (unpackTPos area h)

/-- The stale-entry check `best_g is None or g != best_g` of the main loop. -/
def staleCheck (gs : Option ℕ) (gv : ℕ) : Bool :=
  match gs with
  | none => true
  | some bg => decide (gv ≠ bg)

/-- The main `while open_set:` loop of `single_agent_a_star`, with fuel. -/
def aStarLoop (c : AStarCtx) : ℕ → AStarState → Option (List TPos)
  | 0, _ => none
  | fuel + 1, st =>
    match popMin st.openSet with
    | none => none
    | some ((_, gv, key), rest) =>
      if staleCheck (st.gScore key) gv then aStarLoop c fuel { st with openSet := rest }
      else
        let t := keyT c.area key
        let x : ℤ := (keyX c.area c.h key : ℤ)
        let y : ℤ := (keyY c.area c.h key : ℤ)
        if (x, y) = c.goal then
          some (reconstructPathPacked st.cameFrom key c.area c.h)
        else if c.maxTime ≤ t then aStarLoop c fuel { st with openSet := rest }
        else
          aStarLoop c fuel (moves.foldl (expandMove c key gv x y t) { st with openSet := rest })

/-- Fuel supplied to the loop by the top-level entry point; any positive value
is sound for the properties proved in this file. -/
def aStarFuel (c : AStarCtx) : ℕ :=
  (c.maxTime + 2) * (c.area + 1) * 8 + 8

/-- `single_agent_a_star`: validation of start and goal, then the search.
`start_time` and `max_time` are the simulation's tick values, always
non-negative in every call site, hence modelled as `ℕ`. -/
def singleAgentAStar (start : Pos) (startTime : ℕ) (goal : Pos) (g : Grid)
    (rt : ReservationTable) (maxTime : ℕ) (obstacles : Finset Pos)
    (persistence : ℕ) : Option (List TPos) :=
  if ¬ (g.inBounds start.1 start.2 = true) then none
  else if ¬ (g.inBounds goal.1 goal.2 = true) then none
  else if ¬ ((g.cellType start.1 start.2).isDrivable = true) then none
  else if ¬ ((g.cellType goal.1 goal.2).isDrivable = true) then none
  else if start ∈ obstacles then none
  else
    let h := g.height.toNat
    let area := g.width.toNat * h
    let c : AStarCtx :=
      { g := g, rt := rt, obstacles := obstacles, start := start, goal := goal,
        startTime := startTime, maxTime := maxTime,
        persistUntil := startTime + persistence, area := area, h := h }
    let startKey := packKey area h startTime start.1 start.2
    let startH := (|start.1 - goal.1| + |start.2 - goal.2|).toNat
    let st0 : AStarState :=
      { openSet := [(startH, 0, startKey)],
        gScore := Function.update (fun _ => none) startKey (some 0),
        cameFrom := fun _ => none }
    aStarLoop c (aStarFuel c) st0

/-! ### Decode/encode lemmas for packed keys -/

lemma keyT_pack {w h : ℕ} (area t : ℕ) (x y : ℤ) (harea : area = w * h)
    (hx : x.toNat < w) (hy : y.toNat < h) : keyT area (packKey area h t x y) = t := by
  have hidx : x.toNat * h + y.toNat < area := by
    subst harea
    calc x.toNat * h + y.toNat < x.toNat * h + h := by omega
    _ = (x.toNat + 1) * h := by ring
    _ ≤ w * h := Nat.mul_le_mul_right h hx
  have harea0 : 0 < area := by omega
  unfold keyT packKey
  rw [mul_comm t area, Nat.mul_add_div harea0, Nat.div_eq_of_lt hidx]
  omega

lemma keyIdx_pack {w h : ℕ} (area t : ℕ) (x y : ℤ) (harea : area = w * h)
    (hx : x.toNat < w) (hy : y.toNat < h) :
    packKey area h t x y % area = x.toNat * h + y.toNat := by
  have hidx : x.toNat * h + y.toNat < area := by
    subst harea
    calc x.toNat * h + y.toNat < x.toNat * h + h := by omega
    _ = (x.toNat + 1) * h := by ring
    _ ≤ w * h := Nat.mul_le_mul_right h hx
  unfold packKey
  rw [mul_comm t area, Nat.mul_add_mod, Nat.mod_eq_of_lt hidx]

lemma keyX_pack {w h : ℕ} (area t : ℕ) (x y : ℤ) (harea : area = w * h)
    (hx : x.toNat < w) (hy : y.toNat < h) : keyX area h (packKey area h t x y) = x.toNat := by
  unfold keyX
  rw [keyIdx_pack area t x y harea hx hy]
  have h0 : 0 < h := by omega
  rw [mul_comm, Nat.mul_add_div h0, Nat.div_eq_of_lt hy]
  omega

lemma keyY_pack {w h : ℕ} (area t : ℕ) (x y : ℤ) (harea : area = w * h)
    (hx : x.toNat < w) (hy : y.toNat < h) : keyY area h (packKey area h t x y) = y.toNat := by
  unfold keyY
  rw [keyIdx_pack area t x y harea hx hy]
  rw [mul_comm, Nat.mul_add_mod, Nat.mod_eq_of_lt hy]

lemma inBounds_iff (g : Grid) (x y : ℤ) :
    g.inBounds x y = true ↔ 0 ≤ x ∧ x < g.width ∧ 0 ≤ y ∧ y < g.height := by
  unfold Grid.inBounds
  simp [and_assoc]

/-- Decoded position of a freshly packed in-bounds key. -/
lemma keyPos_pack {w h : ℕ} (area t : ℕ) (x y : ℤ) (harea : area = w * h)
    (hx0 : 0 ≤ x) (hx : x.toNat < w) (hy0 : 0 ≤ y) (hy : y.toNat < h) :
    keyPos area h (packKey area h t x y) = (x, y) := by
  unfold keyPos
  rw [keyX_pack area t x y harea hx hy, keyY_pack area t x y harea hx hy,
    Int.toNat_of_nonneg hx0, Int.toNat_of_nonneg hy0]

lemma pack_lt_pack (area h t : ℕ) (x y : ℤ) (k : ℕ) (harea0 : 0 < area)
    (ht : keyT area k = t) : k < packKey area h (t + 1) x y := by
  have hk : area * t + k % area = k := by
    rw [← ht]
    unfold keyT
    exact Nat.div_add_mod k area
  have hmod : k % area < area := Nat.mod_lt k harea0
  unfold packKey
  calc k = area * t + k % area := hk.symm
  _ < area * t + area := by omega
  _ = (t + 1) * area := by ring
  _ ≤ (t + 1) * area + (x.toNat * h + y.toNat) := Nat.le_add_right _ _

/-! ### popMin properties -/

lemma foldMin_mem (x : ℕ × ℕ × ℕ) (xs : List (ℕ × ℕ × ℕ)) :
    xs.foldl (fun b a => if tripleLt a b then a else b) x = x ∨
      xs.foldl (fun b a => if tripleLt a b then a else b) x ∈ xs := by
  induction xs generalizing x with
  | nil => simp
  | cons z zs ih =>
      simp only [List.foldl_cons]
      by_cases hz : tripleLt z x
      · simp only [if_pos hz]
        rcases ih z with h | h
        · right; rw [h]; exact List.mem_cons_self z zs
        · right; exact List.mem_cons_of_mem z h
      · simp only [if_neg hz]
        rcases ih x with h | h
        · left; exact h
        · right; exact List.mem_cons_of_mem z h

lemma popMin_mem {l : List (ℕ × ℕ × ℕ)} {m : ℕ × ℕ × ℕ} {rest : List (ℕ × ℕ × ℕ)}
    (h : popMin l = some (m, rest)) : m ∈ l ∧ rest = l.erase m := by
  cases l with
  | nil => simp [popMin] at h
  | cons x xs =>
      simp only [popMin, Option.some.injEq, Prod.mk.injEq] at h
      obtain ⟨hm, hr⟩ := h
      subst hm
      subst hr
      constructor
      · rcases foldMin_mem x xs with h1 | h1
        · rw [h1]; exact List.mem_cons_self x xs
        · exact List.mem_cons_of_mem x h1
      · rfl

/-! ### The A-star chain invariant and the C2 shape property -/

/-- One `came_from` link: the child is one tick later, at most one Manhattan
step away, and the parent's tick is at least the start time. -/
def stepRel (c : AStarCtx) (p k : ℕ) : Prop :=
  keyT c.area k = keyT c.area p + 1 ∧
  manhattan (keyPos c.area c.h p) (keyPos c.area c.h k) ≤ 1 ∧
  c.startTime ≤ keyT c.area p

/-- Invariant of the A-star search state: `came_from` is a parent forest rooted
at the start key whose links are unit time-steps, and every key in the open set
has a parent chain and a tick at least the start time. -/
structure AInv (c : AStarCtx) (startKey : ℕ) (st : AStarState) : Prop where
  root_none : st.cameFrom startKey = none
  parent_lt : ∀ k p, st.cameFrom k = some p → p < k
  parent_step : ∀ k p, st.cameFrom k = some p → stepRel c p k
  parent_closed : ∀ k p, st.cameFrom k = some p → p = startKey ∨ (st.cameFrom p).isSome = true
  open_closed : ∀ e ∈ st.openSet, e.2.2 = startKey ∨ (st.cameFrom e.2.2).isSome = true
  open_time : ∀ e ∈ st.openSet, c.startTime ≤ keyT c.area e.2.2

/-- Well-formedness of the context as built by `singleAgentAStar`. -/
structure CtxWF (c : AStarCtx) (startKey : ℕ) : Prop where
  harea : c.area = c.g.width.toNat * c.h
  hh : c.h = c.g.height.toNat
  hSKT : keyT c.area startKey = c.startTime
  hSKdec : unpackTPos c.area c.h startKey = (c.start.1, c.start.2, c.startTime)

lemma moves_small {d : ℤ × ℤ} (hd : d ∈ moves) : |d.1| + |d.2| ≤ 1 := by
  fin_cases hd <;> decide

lemma pushState_inv (c : AStarCtx) (startKey key nkey tg fv : ℕ) (st : AStarState)
    (inv : AInv c startKey st)
    (hclosed : key = startKey ∨ (st.cameFrom key).isSome = true)
    (hstep : stepRel c key nkey) (hlt : key < nkey) (hne : nkey ≠ startKey)
    (htimeN : c.startTime ≤ keyT c.area nkey) :
    AInv c startKey
      { openSet := (fv, tg, nkey) :: st.openSet,
        gScore := Function.update st.gScore nkey (some tg),
        cameFrom := Function.update st.cameFrom nkey (some key) } := by
  constructor
  · dsimp only
    rw [Function.update_noteq (Ne.symm hne)]
    exact inv.root_none
  · intro k p hkp
    dsimp only at hkp
    by_cases hk : k = nkey
    · rw [hk, Function.update_same] at hkp
      cases hkp
      rw [hk]
      exact hlt
    · rw [Function.update_noteq hk] at hkp
      exact inv.parent_lt k p hkp
  · intro k p hkp
    dsimp only at hkp
    by_cases hk : k = nkey
    · rw [hk, Function.update_same] at hkp
      cases hkp
      rw [hk]
      exact hstep
    · rw [Function.update_noteq hk] at hkp
      exact inv.parent_step k p hkp
  · intro k p hkp
    dsimp only at hkp ⊢
    by_cases hk : k = nkey
    · rw [hk, Function.update_same] at hkp
      cases hkp
      rcases hclosed with h | h
      · left; exact h
      · right
        by_cases hks : key = nkey
        · rw [hks, Function.update_same]; rfl
        · rw [Function.update_noteq hks]; exact h
    · rw [Function.update_noteq hk] at hkp
      rcases inv.parent_closed k p hkp with h | h
      · left; exact h
      · right
        by_cases hps : p = nkey
        · rw [hps, Function.update_same]; rfl
        · rw [Function.update_noteq hps]; exact h
  · intro e he
    dsimp only at he ⊢
    simp only [List.mem_cons] at he
    rcases he with he | he
    · right
      rw [he]
      dsimp only
      rw [Function.update_same]
      rfl
    · rcases inv.open_closed e he with h | h
      · left; exact h
      · right
        by_cases hes : e.2.2 = nkey
        · rw [hes, Function.update_same]; rfl
        · rw [Function.update_noteq hes]; exact h
  · intro e he
    dsimp only at he
    simp only [List.mem_cons] at he
    rcases he with he | he
    · rw [he]
      exact htimeN
    · exact inv.open_time e he

lemma expandMove_inv (c : AStarCtx) (startKey : ℕ) (wf : CtxWF c startKey)
    (key gv : ℕ) (x y : ℤ) (t : ℕ)
    (hx : x = (keyX c.area c.h key : ℤ)) (hy : y = (keyY c.area c.h key : ℤ))
    (ht : t = keyT c.area key) (htime : c.startTime ≤ t)
    (st : AStarState) (d : ℤ × ℤ) (hd : d ∈ moves)
    (inv : AInv c startKey st)
    (hclosed : key = startKey ∨ (st.cameFrom key).isSome = true) :
    AInv c startKey (expandMove c key gv x y t st d) := by
  unfold expandMove
  dsimp only
  by_cases hadm : neighborAdmissible c x y t (x + d.1) (y + d.2) = true
  · rw [if_pos hadm]
    have hbounds : c.g.inBounds (x + d.1) (y + d.2) = true := by
      unfold neighborAdmissible at hadm
      simp only [Bool.and_eq_true] at hadm
      exact hadm.1.1.1.1.1.1
    rw [inBounds_iff] at hbounds
    obtain ⟨hnx0, hnxw, hny0, hnyh⟩ := hbounds
    have hxw : (x + d.1).toNat < c.g.width.toNat := by omega
    have hyh : (y + d.2).toNat < c.h := by rw [wf.hh]; omega
    have harea0 : 0 < c.area := by
      rw [wf.harea]
      have h1 : 0 < c.g.width.toNat := by omega
      exact Nat.mul_pos h1 (by omega)
    have hTnkey : keyT c.area (packKey c.area c.h (t + 1) (x + d.1) (y + d.2)) = t + 1 :=
      keyT_pack _ _ _ _ wf.harea hxw hyh
    have hPnkey : keyPos c.area c.h (packKey c.area c.h (t + 1) (x + d.1) (y + d.2))
        = (x + d.1, y + d.2) :=
      keyPos_pack _ _ _ _ wf.harea hnx0 hxw hny0 hyh
    have hlt : key < packKey c.area c.h (t + 1) (x + d.1) (y + d.2) :=
      pack_lt_pack c.area c.h t (x + d.1) (y + d.2) key harea0 ht.symm
    have hne : packKey c.area c.h (t + 1) (x + d.1) (y + d.2) ≠ startKey := by
      intro hEq
      rw [hEq, wf.hSKT] at hTnkey
      omega
    have hstep : stepRel c key (packKey c.area c.h (t + 1) (x + d.1) (y + d.2)) := by
      refine ⟨by rw [hTnkey, ht], ?_, by omega⟩
      rw [hPnkey]
      have hkp : keyPos c.area c.h key = (x, y) := by
        unfold keyPos; rw [hx, hy]
      rw [hkp]
      unfold manhattan
      have hsm := moves_small hd
      have e1 : x - (x + d.1) = -d.1 := by ring
      have e2 : y - (y + d.2) = -d.2 := by ring
      dsimp only
      rw [e1, e2, abs_neg, abs_neg]
      exact hsm
    have htimeN : c.startTime ≤ keyT c.area (packKey c.area c.h (t + 1) (x + d.1) (y + d.2)) := by
      rw [hTnkey]; omega
    cases hg : st.gScore (packKey c.area c.h (t + 1) (x + d.1) (y + d.2)) with
    | none =>
        simp only [hg]
        exact pushState_inv c startKey key _ _ _ st inv hclosed hstep hlt hne htimeN
    | some pg =>
        simp only [hg]
        by_cases h2 : gv + 1 < pg
        · rw [if_pos (decide_eq_true h2)]
          exact pushState_inv c startKey key _ _ _ st inv hclosed hstep hlt hne htimeN
        · rw [if_neg (by simpa using h2)]
          exact inv
  · rw [if_neg hadm]
    exact inv

lemma reconstructKeys_ne_nil (cf : ℕ → Option ℕ) (fuel cur : ℕ) :
    reconstructKeys cf fuel cur ≠ [] := by
  cases fuel with
  | zero => simp [reconstructKeys]
  | succ f =>
      cases hcf : cf cur with
      | none => simp [reconstructKeys, hcf]
      | some p => simp [reconstructKeys, hcf]

lemma reconstruct_chain (c : AStarCtx) (startKey : ℕ) (st : AStarState)
    (inv : AInv c startKey st) :
    ∀ k, (k = startKey ∨ (st.cameFrom k).isSome = true) →
      ∀ fuel, k ≤ fuel →
        (reconstructKeys st.cameFrom fuel k).head? = some startKey ∧
        (reconstructKeys st.cameFrom fuel k).getLast? = some k ∧
        List.Chain' (stepRel c) (reconstructKeys st.cameFrom fuel k) := by
  intro k
  induction k using Nat.strong_induction_on with
  | _ k ih =>
    intro hk fuel hfuel
    cases hcf : st.cameFrom k with
    | none =>
        have hks : k = startKey := by
          rcases hk with h | h
          · exact h
          · rw [hcf] at h; simp at h
        have hrk : reconstructKeys st.cameFrom fuel k = [k] := by
          cases fuel with
          | zero => rfl
          | succ f => simp [reconstructKeys, hcf]
        rw [hrk, hks]
        exact ⟨rfl, rfl, List.chain'_singleton _⟩
    | some p =>
        have hplt : p < k := inv.parent_lt k p hcf
        obtain ⟨f, rfl⟩ : ∃ f, fuel = f + 1 := ⟨fuel - 1, by omega⟩
        simp only [reconstructKeys, hcf]
        have hpch : p = startKey ∨ (st.cameFrom p).isSome = true := inv.parent_closed k p hcf
        obtain ⟨ih1, ih2, ih3⟩ := ih p hplt hpch f (by omega)
        obtain ⟨a, L, hL⟩ := List.exists_cons_of_ne_nil (reconstructKeys_ne_nil st.cameFrom f p)
        refine ⟨?_, ?_, ?_⟩
        · rw [hL]
          rw [hL] at ih1
          simpa using ih1
        · rw [List.getLast?_concat]
        · rw [List.chain'_append]
          refine ⟨ih3, List.chain'_singleton _, ?_⟩
          intro u hu v hv
          simp only [List.head?_cons, Option.mem_def, Option.some.injEq] at hv
          rw [ih2] at hu
          simp only [Option.mem_def, Option.some.injEq] at hu
          rw [← hu, ← hv]
          exact inv.parent_step k p hcf

lemma restInv (c : AStarCtx) (startKey : ℕ) (st : AStarState) (inv : AInv c startKey st)
    {m : ℕ × ℕ × ℕ} {rest : List (ℕ × ℕ × ℕ)} (hpop : popMin st.openSet = some (m, rest)) :
    AInv c startKey { st with openSet := rest } := by
  obtain ⟨hm, hr⟩ := popMin_mem hpop
  constructor
  · exact inv.root_none
  · exact inv.parent_lt
  · exact inv.parent_step
  · exact inv.parent_closed
  · intro e he
    dsimp only at he
    exact inv.open_closed e (by rw [hr] at he; exact List.erase_subset _ _ he)
  · intro e he
    dsimp only at he
    exact inv.open_time e (by rw [hr] at he; exact List.erase_subset _ _ he)

lemma expandMove_mono (c : AStarCtx) (key gv : ℕ) (x y : ℤ) (t : ℕ)
    (st : AStarState) (d : ℤ × ℤ) (k : ℕ) (h : (st.cameFrom k).isSome = true) :
    ((expandMove c key gv x y t st d).cameFrom k).isSome = true := by
  unfold expandMove
  dsimp only
  by_cases hadm : neighborAdmissible c x y t (x + d.1) (y + d.2) = true
  · rw [if_pos hadm]
    cases hg : st.gScore (packKey c.area c.h (t + 1) (x + d.1) (y + d.2)) with
    | none =>
        simp only [hg]
        by_cases hk : k = packKey c.area c.h (t + 1) (x + d.1) (y + d.2)
        · subst hk
          show (Function.update st.cameFrom (packKey c.area c.h (t + 1) (x + d.1) (y + d.2))
            (some key) (packKey c.area c.h (t + 1) (x + d.1) (y + d.2))).isSome = true
          rw [Function.update_same]
          rfl
        · show (Function.update st.cameFrom (packKey c.area c.h (t + 1) (x + d.1) (y + d.2))
            (some key) k).isSome = true
          rw [Function.update_noteq hk]
          exact h
    | some pg =>
        simp only [hg]
        by_cases h2 : gv + 1 < pg
        · rw [if_pos (decide_eq_true h2)]
          by_cases hk : k = packKey c.area c.h (t + 1) (x + d.1) (y + d.2)
          · subst hk
            show (Function.update st.cameFrom (packKey c.area c.h (t + 1) (x + d.1) (y + d.2))
              (some key) (packKey c.area c.h (t + 1) (x + d.1) (y + d.2))).isSome = true
            rw [Function.update_same]
            rfl
          · show (Function.update st.cameFrom (packKey c.area c.h (t + 1) (x + d.1) (y + d.2))
              (some key) k).isSome = true
            rw [Function.update_noteq hk]
            exact h
        · rw [if_neg (by simpa using h2)]
          exact h
  · rw [if_neg hadm]
    exact h

lemma foldExpand_inv (c : AStarCtx) (startKey : ℕ) (wf : CtxWF c startKey)
    (key gv : ℕ) (x y : ℤ) (t : ℕ)
    (hx : x = (keyX c.area c.h key : ℤ)) (hy : y = (keyY c.area c.h key : ℤ))
    (ht : t = keyT c.area key) (htime : c.startTime ≤ t) :
    ∀ (ds : List (ℤ × ℤ)), (∀ d ∈ ds, d ∈ moves) →
      ∀ (st : AStarState), AInv c startKey st →
        (key = startKey ∨ (st.cameFrom key).isSome = true) →
        AInv c startKey (ds.foldl (expandMove c key gv x y t) st) := by
  intro ds
  induction ds with
  | nil => intro _ st inv _; exact inv
  | cons d ds ihd =>
      intro hds st inv hclosed
      simp only [List.foldl_cons]
      refine ihd (fun e he => hds e (List.mem_cons_of_mem d he)) _
        (expandMove_inv c startKey wf key gv x y t hx hy ht htime st d
          (hds d (List.mem_cons_self d ds)) inv hclosed) ?_
      rcases hclosed with h | h
      · left; exact h
      · right; exact expandMove_mono c key gv x y t st d key h

/-- Shape of a returned path, as asserted by the spec: starts at the start
position and start time, ends at the goal position, and consecutive entries are
one tick and at most one Manhattan step apart. -/
def pathShape (c : AStarCtx) (path : List TPos) : Prop :=
  path.head? = some (c.start.1, c.start.2, c.startTime) ∧
  (∃ z : TPos, path.getLast? = some z ∧ (z.1, z.2.1) = c.goal) ∧
  List.Chain' (fun a b : TPos => b.2.2 = a.2.2 + 1 ∧ manhattan (a.1, a.2.1) (b.1, b.2.1) ≤ 1) path

lemma aStarLoop_shape (c : AStarCtx) (startKey : ℕ) (wf : CtxWF c startKey) :
    ∀ (fuel : ℕ) (st : AStarState), AInv c startKey st →
      ∀ path, aStarLoop c fuel st = some path → pathShape c path := by
  intro fuel
  induction fuel with
  | zero => intro st _ path hres; simp [aStarLoop] at hres
  | succ f ihf =>
      intro st inv path hres
      unfold aStarLoop at hres
      cases hpop : popMin st.openSet with
      | none => rw [hpop] at hres; simp at hres
      | some pr =>
          obtain ⟨⟨fv, gv, key⟩, rest⟩ := pr
          rw [hpop] at hres
          dsimp only at hres
          have hmem : (fv, gv, key) ∈ st.openSet := (popMin_mem hpop).1
          have hclosed : key = startKey ∨ (st.cameFrom key).isSome = true :=
            inv.open_closed (fv, gv, key) hmem
          have htime : c.startTime ≤ keyT c.area key :=
            inv.open_time (fv, gv, key) hmem
          cases hgs : st.gScore key with
          | none =>
              simp only [hgs, staleCheck, if_true] at hres
              exact ihf _ (restInv c startKey st inv hpop) path hres
          | some bg =>
              simp only [hgs, staleCheck] at hres
              by_cases hb : gv = bg
              · rw [if_neg (by simp [hb])] at hres
                by_cases hgoal :
                    (((keyX c.area c.h key : ℕ) : ℤ), ((keyY c.area c.h key : ℕ) : ℤ)) = c.goal
                · rw [if_pos hgoal] at hres
                  have hpath : path = reconstructPathPacked st.cameFrom key c.area c.h := by
                    cases hres; rfl
                  obtain ⟨h1, h2, h3⟩ :=
                    reconstruct_chain c startKey st inv key hclosed key le_rfl
                  subst hpath
                  unfold reconstructPathPacked
                  refine ⟨?_, ?_, ?_⟩
                  · rw [List.head?_map, h1, ← wf.hSKdec]
                    rfl
                  · refine ⟨unpackTPos c.area c.h key, ?_, ?_⟩
                    · rw [List.getLast?_map, h2]
                      rfl
                    · exact hgoal
                  · rw [List.chain'_map]
                    refine List.Chain'.imp ?_ h3
                    intro a b hab
                    obtain ⟨hT, hM, _⟩ := hab
                    constructor
                    · exact hT
                    · exact hM
                · rw [if_neg hgoal] at hres
                  by_cases hmax : c.maxTime ≤ keyT c.area key
                  · rw [if_pos hmax] at hres
                    exact ihf _ (restInv c startKey st inv hpop) path hres
                  · rw [if_neg hmax] at hres
                    refine ihf _ ?_ path hres
                    refine foldExpand_inv c startKey wf key gv _ _ _ rfl rfl rfl htime
                      moves (fun d hd => hd) _ (restInv c startKey st inv hpop) hclosed
              · rw [if_pos (by simp [hb])] at hres
                exact ihf _ (restInv c startKey st inv hpop) path hres

/-- The output shape asserted by the spec for a successful plan: first element
is the start position at the start time, the final element's position is the
goal, consecutive entries are at most 1 apart in Manhattan distance, and the
time components increase by exactly 1 per entry. -/
def plannedPathShape (start : Pos) (startTime : ℕ) (goal : Pos) (path : List TPos) : Prop :=
  path.head? = some (start.1, start.2, startTime) ∧
  (∃ z : TPos, path.getLast? = some z ∧ (z.1, z.2.1) = goal) ∧
  List.Chain' (fun a b : TPos =>
    b.2.2 = a.2.2 + 1 ∧ manhattan (a.1, a.2.1) (b.1, b.2.1) ≤ 1) path

/-- C2: every call of the single-agent space-time A-star planner returns either
`None` or a sequence of timed positions whose first element is the start
position at the start time, whose final element has position equal to the goal,
whose consecutive entries differ by at most 1 in Manhattan distance, and whose
time components strictly increase by exactly 1 per entry. -/
theorem aStar_output_shape (start : Pos) (startTime : ℕ) (goal : Pos) (g : Grid)
    (rt : ReservationTable) (maxTime : ℕ) (obstacles : Finset Pos) (persistence : ℕ)
    (path : List TPos)
    (hres : singleAgentAStar start startTime goal g rt maxTime obstacles persistence
      = some path) :
    plannedPathShape start startTime goal path := by
  unfold plannedPathShape
  unfold singleAgentAStar at hres
  by_cases h1 : g.inBounds start.1 start.2 = true
  · rw [if_neg (not_not_intro h1)] at hres
    by_cases h2 : g.inBounds goal.1 goal.2 = true
    · rw [if_neg (not_not_intro h2)] at hres
      by_cases h3 : (g.cellType start.1 start.2).isDrivable = true
      · rw [if_neg (not_not_intro h3)] at hres
        by_cases h4 : (g.cellType goal.1 goal.2).isDrivable = true
        · rw [if_neg (not_not_intro h4)] at hres
          by_cases h5 : start ∈ obstacles
          · rw [if_pos h5] at hres; cases hres
          · rw [if_neg h5] at hres
            dsimp only at hres
            rw [inBounds_iff] at h1
            obtain ⟨hsx0, hsxw, hsy0, hsyh⟩ := h1
            have hxw : start.1.toNat < g.width.toNat := by omega
            have hyh : start.2.toNat < g.height.toNat := by omega
            set c : AStarCtx :=
              { g := g, rt := rt, obstacles := obstacles, start := start, goal := goal,
                startTime := startTime, maxTime := maxTime,
                persistUntil := startTime + persistence,
                area := g.width.toNat * g.height.toNat, h := g.height.toNat } with hc
            set startKey :=
              packKey (g.width.toNat * g.height.toNat) g.height.toNat startTime
                start.1 start.2 with hsk
            have hSKT : keyT (g.width.toNat * g.height.toNat) startKey = startTime :=
              keyT_pack _ _ _ _ rfl hxw hyh
            have wf : CtxWF c startKey := by
              refine ⟨rfl, rfl, hSKT, ?_⟩
              unfold unpackTPos
              rw [keyX_pack _ _ _ _ rfl hxw hyh, keyY_pack _ _ _ _ rfl hxw hyh]
              show ((start.1.toNat : ℤ), (start.2.toNat : ℤ),
                keyT (g.width.toNat * g.height.toNat) startKey) = _
              rw [hSKT, Int.toNat_of_nonneg hsx0, Int.toNat_of_nonneg hsy0]
            have inv0 : AInv c startKey
                { openSet := [((|start.1 - goal.1| + |start.2 - goal.2|).toNat, 0, startKey)],
                  gScore := Function.update (fun _ => none) startKey (some 0),
                  cameFrom := fun _ => none } := by
              constructor
              · rfl
              · intro k p hkp; cases hkp
              · intro k p hkp; cases hkp
              · intro k p hkp; cases hkp
              · intro e he
                dsimp only at he
                simp only [List.mem_singleton] at he
                left
                rw [he]
              · intro e he
                dsimp only at he
                simp only [List.mem_singleton] at he
                rw [he]
                dsimp only
                rw [hSKT]
            have := aStarLoop_shape c startKey wf _ _ inv0 path hres
            exact this
        · rw [if_pos h4] at hres; cases hres
      · rw [if_pos h3] at hres; cases hres
    · rw [if_pos h2] at hres; cases hres
  · rw [if_pos h1] at hres; cases hres

/-- A small all-road grid used by concrete witnesses. -/
def witGrid : Grid :=
  { width := 2, height := 1, cellType := fun _ _ => CellType.ROAD }

/-- C2 witness: the shape theorem applied to a concrete successful plan. -/
theorem aStar_output_shape_witness :
    singleAgentAStar ((0 : ℤ), (0 : ℤ)) 0 ((1 : ℤ), (0 : ℤ)) witGrid ⟨∅, ∅, ∅⟩ 10 ∅ 5
        = some [((0 : ℤ), (0 : ℤ), (0 : ℕ)), ((1 : ℤ), (0 : ℤ), (1 : ℕ))] ∧
      plannedPathShape ((0 : ℤ), (0 : ℤ)) 0 ((1 : ℤ), (0 : ℤ))
        [((0 : ℤ), (0 : ℤ), (0 : ℕ)), ((1 : ℤ), (0 : ℤ), (1 : ℕ))] :=
  ⟨by decide,
    aStar_output_shape ((0 : ℤ), (0 : ℤ)) 0 ((1 : ℤ), (0 : ℤ)) witGrid ⟨∅, ∅, ∅⟩ 10 ∅ 5
      [((0 : ℤ), (0 : ℤ), (0 : ℕ)), ((1 : ℤ), (0 : ℤ), (1 : ℕ))] (by decide)⟩

/-- The three successor constraints asserted by the spec for a neighbor
`(nx, ny)` entered at time `t+1`, plus the exact characterization of when an
ephemeral-obstacle cell blocks a move. -/
def successorConstraints (c : AStarCtx) (p : ℕ) (nx ny : ℤ) (t : ℕ) : Prop :=
  (c.g.cellType nx ny = CellType.EXIT → (nx, ny) = c.goal) ∧
  (c.g.cellType nx ny = CellType.ENTRY → (nx, ny) = c.start ∨ (nx, ny) = c.goal) ∧
  ((nx, ny) ∈ c.obstacles → ¬ (t + 1 < c.startTime + p)) ∧
  (∀ q : Pos, q ∈ c.obstacles →
    (ephemeralBlocked c.obstacles c.persistUntil q (t + 1) = true ↔
      t + 1 < c.startTime + p))

/-- C3: a neighbor `(nx, ny)` at time `t+1` is admissible only if its cell kind
is not EXIT unless it is the goal, not ENTRY unless it is the start or the
goal, and it is not blocked by an ephemeral obstacle; a cell in the
ephemeral-obstacle set blocks the move exactly when `t + 1 < t0 + p`. -/
theorem aStar_successor_constraints (c : AStarCtx) (p : ℕ)
    (hp : c.persistUntil = c.startTime + p) (x y nx ny : ℤ) (t : ℕ)
    (hadm : neighborAdmissible c x y t nx ny = true) :
    successorConstraints c p nx ny t := by
  unfold successorConstraints
  unfold neighborAdmissible at hadm
  simp only [Bool.and_eq_true, Bool.not_eq_true'] at hadm
  obtain ⟨⟨⟨⟨⟨⟨hbnd, hwall⟩, hexit⟩, hentry⟩, heph⟩, hvres⟩, hedge⟩ := hadm
  refine ⟨?_, ?_, ?_, ?_⟩
  · intro hk
    by_cases hg : (nx, ny) = c.goal
    · exact hg
    · exfalso; simp [hk, hg] at hexit
  · intro hk
    by_cases hs : (nx, ny) = c.start
    · left; exact hs
    · by_cases hg : (nx, ny) = c.goal
      · right; exact hg
      · exfalso; simp [hk, hs, hg] at hentry
  · intro hmem hlt
    have hne : c.obstacles.Nonempty := ⟨(nx, ny), hmem⟩
    simp only [Bool.and_eq_false_iff, decide_eq_false_iff_not] at heph
    rcases heph with h | h
    · rcases h with h | h
      · exact h hne
      · exact h hmem
    · rw [hp] at h; exact h hlt
  · intro q hq
    unfold ephemeralBlocked
    simp only [Bool.and_eq_true, decide_eq_true_eq]
    constructor
    · intro hb
      rw [← hp]
      exact hb.2
    · intro hlt
      exact ⟨⟨⟨q, hq⟩, hq⟩, by rw [hp]; exact hlt⟩

/-- C3 context for the witness: a concrete planner call with one far-away
ephemeral obstacle. -/
def c3Ctx : AStarCtx :=
  { g := witGrid, rt := ⟨∅, ∅, ∅⟩, obstacles := {((5 : ℤ), (5 : ℤ))},
    start := ((0 : ℤ), (0 : ℤ)), goal := ((1 : ℤ), (0 : ℤ)),
    startTime := 0, maxTime := 10, persistUntil := 20, area := 2, h := 1 }

/-- C3 witness: the constraint theorem applied at a concrete admissible move. -/
theorem aStar_successor_constraints_witness :
    successorConstraints c3Ctx 20 1 0 0 :=
  aStar_successor_constraints c3Ctx 20 rfl 0 0 1 0 0 (by decide)

lemma reconstructKeys_root (cf : ℕ → Option ℕ) (fuel cur : ℕ) (h : cf cur = none) :
    reconstructKeys cf fuel cur = [cur] := by
  cases fuel with
  | zero => rfl
  | succ f => simp [reconstructKeys, h]

/-- C10: if the start equals the goal and the start cell is in bounds, drivable
and not an ephemeral obstacle, the planner returns the singleton path
`[(sx, sy, t0)]` regardless of the reservation table's contents: reservation
checks apply only to successor nodes, never to the start node. -/
theorem aStar_start_eq_goal (s : Pos) (t0 : ℕ) (g : Grid) (rt : ReservationTable)
    (maxT : ℕ) (obstacles : Finset Pos) (p : ℕ)
    (hb : g.inBounds s.1 s.2 = true) (hd : (g.cellType s.1 s.2).isDrivable = true)
    (ho : s ∉ obstacles) :
    singleAgentAStar s t0 s g rt maxT obstacles p = some [(s.1, s.2, t0)] := by
  unfold singleAgentAStar
  rw [if_neg (not_not_intro hb), if_neg (not_not_intro hb),
    if_neg (not_not_intro hd), if_neg (not_not_intro hd), if_neg ho]
  dsimp only
  rw [inBounds_iff] at hb
  obtain ⟨hsx0, hsxw, hsy0, hsyh⟩ := hb
  have hxw : s.1.toNat < g.width.toNat := by omega
  have hyh : s.2.toNat < g.height.toNat := by omega
  obtain ⟨f, hf⟩ : ∃ f, aStarFuel
      { g := g, rt := rt, obstacles := obstacles, start := s, goal := s,
        startTime := t0, maxTime := maxT, persistUntil := t0 + p,
        area := g.width.toNat * g.height.toNat, h := g.height.toNat } = f + 1 :=
    ⟨(maxT + 2) * (g.width.toNat * g.height.toNat + 1) * 8 + 7, rfl⟩
  rw [hf]
  simp only [aStarLoop, popMin, List.foldl_nil, List.erase_cons_head]
  rw [Function.update_same]
  have hstale : staleCheck (some 0) 0 = false := rfl
  rw [hstale, if_neg (by decide)]
  have hgx : ((keyX (g.width.toNat * g.height.toNat) g.height.toNat
      (packKey (g.width.toNat * g.height.toNat) g.height.toNat t0 s.1 s.2) : ℕ) : ℤ) = s.1 := by
    rw [keyX_pack _ _ _ _ rfl hxw hyh, Int.toNat_of_nonneg hsx0]
  have hgy : ((keyY (g.width.toNat * g.height.toNat) g.height.toNat
      (packKey (g.width.toNat * g.height.toNat) g.height.toNat t0 s.1 s.2) : ℕ) : ℤ) = s.2 := by
    rw [keyY_pack _ _ _ _ rfl hxw hyh, Int.toNat_of_nonneg hsy0]
  rw [if_pos (by rw [hgx, hgy])]
  unfold reconstructPathPacked
  rw [reconstructKeys_root _ _ _ rfl]
  simp only [List.map_cons, List.map_nil, Option.some.injEq, List.cons.injEq, and_true]
  unfold unpackTPos
  rw [keyX_pack _ _ _ _ rfl hxw hyh, keyY_pack _ _ _ _ rfl hxw hyh,
    keyT_pack _ _ _ _ rfl hxw hyh, Int.toNat_of_nonneg hsx0, Int.toNat_of_nonneg hsy0]

/-- C10 witness: a start cell that is statically reserved and vertex-reserved
at `t0`, where the planner still succeeds instantly when start = goal. -/
theorem aStar_start_eq_goal_witness :
    singleAgentAStar ((0 : ℤ), (0 : ℤ)) 4 ((0 : ℤ), (0 : ℤ)) witGrid
        ⟨{((0 : ℤ), (0 : ℤ), (4 : ℕ))}, ∅, {((0 : ℤ), (0 : ℤ))}⟩ 10 {((1 : ℤ), (0 : ℤ))} 7
      = some [((0 : ℤ), (0 : ℤ), (4 : ℕ))] :=
  aStar_start_eq_goal ((0 : ℤ), (0 : ℤ)) 4 witGrid
    ⟨{((0 : ℤ), (0 : ℤ), (4 : ℕ))}, ∅, {((0 : ℤ), (0 : ℤ))}⟩ 10 {((1 : ℤ), (0 : ℤ))} 7
    (by decide) (by decide) (by decide)

/-! ### Per-tick conflict resolution (`simulation_core.py`, `_advance_cars`,
lines 342-414)

`active_moves` is a Python dict keyed by car id; it is modelled as a function
`mov : ℕ → Pos` together with the insertion-ordered key list `ids`.
`current_positions` is the positions snapshot, modelled as `cur : ℕ → Pos`.
The `while True:` loop runs one vertex pass and one swap pass per iteration
and stops when a full iteration changes nothing; the loop is given fuel
`ids.length`, which the termination theorem shows always reaches the fixpoint.
An assignment `active_moves[cid] = current_positions[cid]` is modelled as an
unconditional function update: the code guards it with
`if active_moves[cid] != current_positions[cid]`, which only affects the
`changed` flag, not the resulting value. -/

/-- `moves_to_cell[p]`: the ids (in insertion order) whose move is `p`. -/
def targets (ids : List ℕ) (mov : ℕ → Pos) (p : Pos) : List ℕ :=
  ids.filter (fun cid => decide (mov cid = p))

/-- Python `min` over a non-empty list of ids. -/
def listMin : List ℕ → ℕ
  | [] => 0
  | x :: xs => xs.foldl Nat.min x

/-- Winner of a vertex conflict: the first car in the cell's list that is
already at the cell, else `min(cids)` (lines 366-374). -/
def vertexWinner (cur : ℕ → Pos) (p : Pos) (cids : List ℕ) : ℕ :=
  match cids.find? (fun cid => decide (cur cid = p)) with
  | some w => w
  | none => listMin cids

/-- Revert every car of the conflicted cell except the winner to its current
position (lines 377-382). -/
def revertLosers (cur : ℕ → Pos) (w : ℕ) (cids : List ℕ) (m : ℕ → Pos) : ℕ → Pos :=
  cids.foldl (fun m1 cid => if cid = w then m1 else Function.update m1 cid (cur cid)) m

/-- The vertex-conflict pass: iterate over the distinct target cells of the
round-start move map (the keys of `moves_to_cell`), reverting the losers of
every cell targeted by more than one car (lines 353-382). -/
def vertexPass (ids : List ℕ) (cur mov : ℕ → Pos) : ℕ → Pos :=
  ((ids.map mov).dedup).foldl
    (fun m p =>
      let cids := targets ids mov p
      if 1 < cids.length then revertLosers cur (vertexWinner cur p cids) cids m
      else m)
    mov

/-- `pos_to_cid = {pos: cid for cid, pos in current_positions.items()}`: for a
duplicated position the comprehension keeps the last writer, hence the search
through the reversed key list. -/
def posToCid (ids : List ℕ) (cur : ℕ → Pos) (p : Pos) : Option ℕ :=
  ids.reverse.find? (fun cid => decide (cur cid = p))

/-- One step of the edge-swap scan for car `a` (lines 387-411): if `a` moves
into the current cell of some car `b` and `b` moves into `a`'s current cell,
both revert. -/
def swapStep (cur : ℕ → Pos) (ids : List ℕ) (m : ℕ → Pos) (a : ℕ) : ℕ → Pos :=
  if m a = cur a then m
  else
    match posToCid ids cur (m a) with
    | none => m
    | some b =>
      if m b = cur a then
        Function.update (Function.update m a (cur a)) b (cur b)
      else m

/-- The edge-swap pass: scan all cars in `active_moves` order, with updates
visible to later scan steps as in the Python dict iteration. -/
def swapPass (ids : List ℕ) (cur mov : ℕ → Pos) : ℕ → Pos :=
  ids.foldl (swapStep cur ids) mov

/-- One iteration of the `while True:` loop: vertex conflicts, then swaps. -/
def resolveRound (ids : List ℕ) (cur mov : ℕ → Pos) : ℕ → Pos :=
  swapPass ids cur (vertexPass ids cur mov)

/-- The `changed` flag of one iteration: some car's move was actually altered.
Every in-round assignment writes `current_positions[cid]` and is guarded by
the value being different, and values never change back within the round, so
`changed` is exactly extensional difference on the key list. -/
def roundChanged (ids : List ℕ) (cur mov : ℕ → Pos) : Bool :=
  !(ids.all fun cid => decide (resolveRound ids cur mov cid = mov cid))

/-- The conflict-resolution loop with fuel. -/
def resolveLoopAux (ids : List ℕ) (cur : ℕ → Pos) : ℕ → (ℕ → Pos) → (ℕ → Pos)
  | 0, mov => mov
  | fuel + 1, mov =>
    if roundChanged ids cur mov then resolveLoopAux ids cur fuel (resolveRound ids cur mov)
    else mov

/-- The full conflict resolution: iterate rounds to the fixpoint.  Fuel
`ids.length` suffices (theorem `conflict_loop_terminates`). -/
def conflictResolve (ids : List ℕ) (cur mov : ℕ → Pos) : ℕ → Pos :=
  resolveLoopAux ids cur ids.length mov

/-- Number of cars whose pending move differs from their current position. -/
def moverCount (ids : List ℕ) (cur m : ℕ → Pos) : ℕ :=
  (ids.filter fun c => decide (m c ≠ cur c)).length

lemma revertLosers_revert (cur : ℕ → Pos) (w : ℕ) (cids : List ℕ) :
    ∀ (m : ℕ → Pos) (c : ℕ), revertLosers cur w cids m c = m c ∨
      revertLosers cur w cids m c = cur c := by
  induction cids with
  | nil => intro m c; left; rfl
  | cons d ds ih =>
      intro m c
      unfold revertLosers
      simp only [List.foldl_cons]
      rcases ih (if d = w then m else Function.update m d (cur d)) c with h | h
      · unfold revertLosers at h
        rw [h]
        by_cases hd : d = w
        · rw [if_pos hd]; left; rfl
        · rw [if_neg hd]
          by_cases hc : c = d
          · right; rw [hc, Function.update_same]
          · left; rw [Function.update_noteq hc]
      · unfold revertLosers at h
        rw [h]; right; rfl

lemma vertexPass_revert (ids : List ℕ) (cur : ℕ → Pos) :
    ∀ (cells : List Pos) (m mov : ℕ → Pos) (c : ℕ),
      (m c = mov c ∨ m c = cur c) →
      ((cells.foldl
        (fun m1 p =>
          let cids := targets ids mov p
          if 1 < cids.length then revertLosers cur (vertexWinner cur p cids) cids m1
          else m1) m) c = mov c ∨
       (cells.foldl
        (fun m1 p =>
          let cids := targets ids mov p
          if 1 < cids.length then revertLosers cur (vertexWinner cur p cids) cids m1
          else m1) m) c = cur c) := by
  intro cells
  induction cells with
  | nil => intro m mov c h; exact h
  | cons p ps ih =>
      intro m mov c h
      simp only [List.foldl_cons]
      refine ih _ mov c ?_
      dsimp only
      by_cases hlen : 1 < (targets ids mov p).length
      · rw [if_pos hlen]
        rcases revertLosers_revert cur (vertexWinner cur p (targets ids mov p))
            (targets ids mov p) m c with h2 | h2
        · rw [h2]; exact h
        · rw [h2]; right; rfl
      · rw [if_neg hlen]; exact h

lemma swapStep_revert (cur : ℕ → Pos) (ids : List ℕ) (m : ℕ → Pos) (a c : ℕ) :
    swapStep cur ids m a c = m c ∨ swapStep cur ids m a c = cur c := by
  unfold swapStep
  by_cases h1 : m a = cur a
  · rw [if_pos h1]; left; rfl
  · rw [if_neg h1]
    cases hb : posToCid ids cur (m a) with
    | none => left; rfl
    | some b =>
        dsimp only
        by_cases h2 : m b = cur a
        · rw [if_pos h2]
          by_cases hcb : c = b
          · right; rw [hcb, Function.update_same]
          · rw [Function.update_noteq hcb]
            by_cases hca : c = a
            · right; rw [hca, Function.update_same]
            · left; rw [Function.update_noteq hca]
        · rw [if_neg h2]; left; rfl

lemma swapPass_revert (ids0 ids : List ℕ) (cur : ℕ → Pos) :
    ∀ (m mov : ℕ → Pos) (c : ℕ), (m c = mov c ∨ m c = cur c) →
      ((ids.foldl (swapStep cur ids0) m) c = mov c ∨
       (ids.foldl (swapStep cur ids0) m) c = cur c) := by
  induction ids with
  | nil => intro m mov c h; exact h
  | cons a as ih =>
      intro m mov c h
      simp only [List.foldl_cons]
      refine ih _ mov c ?_
      rcases swapStep_revert cur ids0 m a c with h2 | h2
      · rw [h2]; exact h
      · rw [h2]; right; rfl

/-- Both passes only ever revert: after a round each car's move is its
round-start move or its current position. -/
lemma resolveRound_revert (ids : List ℕ) (cur mov : ℕ → Pos) (c : ℕ) :
    resolveRound ids cur mov c = mov c ∨ resolveRound ids cur mov c = cur c := by
  unfold resolveRound swapPass
  refine swapPass_revert ids ids cur _ mov c ?_
  unfold vertexPass
  exact vertexPass_revert ids cur _ mov mov c (Or.inl rfl)

lemma filter_length_mono {l : List ℕ} {p q : ℕ → Bool}
    (h : ∀ x ∈ l, q x = true → p x = true) :
    (l.filter q).length ≤ (l.filter p).length := by
  induction l with
  | nil => simp
  | cons x xs ih =>
      have hxs : ∀ y ∈ xs, q y = true → p y = true :=
        fun y hy => h y (List.mem_cons_of_mem x hy)
      by_cases hq : q x = true
      · have hp : p x = true := h x (List.mem_cons_self x xs) hq
        simp only [List.filter_cons, hq, hp, if_true, List.length_cons]
        exact Nat.succ_le_succ (ih hxs)
      · simp only [List.filter_cons, hq]
        by_cases hp : p x = true
        · simp only [hp, if_true, List.length_cons]
          exact Nat.le_succ_of_le (ih hxs)
        · simp only [hp]
          exact ih hxs

lemma filter_length_lt {l : List ℕ} {p q : ℕ → Bool}
    (h : ∀ x ∈ l, q x = true → p x = true)
    {c : ℕ} (hc : c ∈ l) (hpc : p c = true) (hqc : q c = false) :
    (l.filter q).length < (l.filter p).length := by
  induction l with
  | nil => cases hc
  | cons x xs ih =>
      have hxs : ∀ y ∈ xs, q y = true → p y = true :=
        fun y hy => h y (List.mem_cons_of_mem x hy)
      rcases List.mem_cons.mp hc with hcx | hcx
      · subst hcx
        simp only [List.filter_cons, hqc, hpc, if_true, List.length_cons]
        exact Nat.lt_succ_of_le (filter_length_mono hxs)
      · by_cases hq : q x = true
        · have hp : p x = true := h x (List.mem_cons_self x xs) hq
          simp only [List.filter_cons, hq, hp, if_true, List.length_cons]
          exact Nat.succ_lt_succ (ih hxs hcx)
        · simp only [List.filter_cons, hq]
          by_cases hp : p x = true
          · simp only [hp, if_true, List.length_cons]
            exact Nat.lt_succ_of_lt (ih hxs hcx)
          · simp only [hp]
            exact ih hxs hcx

/-- A changing round strictly decreases the mover count. -/
lemma round_decreases (ids : List ℕ) (cur mov : ℕ → Pos)
    (h : roundChanged ids cur mov = true) :
    moverCount ids cur (resolveRound ids cur mov) < moverCount ids cur mov := by
  unfold roundChanged at h
  simp only [Bool.not_eq_true', List.all_eq_false, decide_eq_false_iff_not] at h
  obtain ⟨c, hc, hne⟩ := h
  replace hne : resolveRound ids cur mov c ≠ mov c := by simpa using hne
  have hrev := resolveRound_revert ids cur mov c
  have hcur : resolveRound ids cur mov c = cur c := by
    rcases hrev with h1 | h1
    · exact absurd h1 hne
    · exact h1
  have hmov : mov c ≠ cur c := by
    intro hEq
    apply hne
    rw [hcur, hEq]
  unfold moverCount
  refine filter_length_lt ?_ hc (by simpa using hmov) (by simp [hcur])
  intro x _ hx
  simp only [decide_eq_true_eq] at hx ⊢
  intro hEq
  apply hx
  rcases resolveRound_revert ids cur mov x with h1 | h1
  · rw [h1, hEq]
  · rw [h1]

lemma moverCount_zero_fix (ids : List ℕ) (cur mov : ℕ → Pos)
    (h : moverCount ids cur mov = 0) : roundChanged ids cur mov = false := by
  unfold moverCount at h
  rw [List.length_eq_zero] at h
  unfold roundChanged
  simp only [Bool.not_eq_false', List.all_eq_true, decide_eq_true_eq]
  intro c hc
  have hmc : mov c = cur c := by
    by_contra hne
    have : c ∈ ids.filter fun c => decide (mov c ≠ cur c) :=
      List.mem_filter.mpr ⟨hc, by simpa using hne⟩
    rw [h] at this
    cases this
  rcases resolveRound_revert ids cur mov c with h1 | h1
  · exact h1
  · rw [h1, hmc]

/-- The loop reaches a fixpoint given fuel at least the mover count. -/
lemma resolveLoopAux_fix (ids : List ℕ) (cur : ℕ → Pos) :
    ∀ (fuel : ℕ) (mov : ℕ → Pos), moverCount ids cur mov ≤ fuel →
      roundChanged ids cur (resolveLoopAux ids cur fuel mov) = false := by
  intro fuel
  induction fuel with
  | zero =>
      intro mov hm
      unfold resolveLoopAux
      exact moverCount_zero_fix ids cur mov (by omega)
  | succ f ih =>
      intro mov hm
      unfold resolveLoopAux
      by_cases hch : roundChanged ids cur mov = true
      · rw [if_pos hch]
        refine ih _ ?_
        have := round_decreases ids cur mov hch
        omega
      · rw [if_neg hch]
        simpa using hch

/-- Fixpoint of the full resolution, with the code's fuel `ids.length`. -/
lemma conflictResolve_fix (ids : List ℕ) (cur mov : ℕ → Pos) :
    roundChanged ids cur (conflictResolve ids cur mov) = false := by
  unfold conflictResolve
  refine resolveLoopAux_fix ids cur ids.length mov ?_
  unfold moverCount
  exact List.length_filter_le _ _

/-- C9: the iterative conflict-resolution loop terminates: every iteration
that changes anything strictly decreases the number of cars whose active move
differs from their current position, that number is at most the number of
cars, and the fixpoint is reached within (number of cars) iterations. -/
theorem conflict_loop_terminates (ids : List ℕ) (cur mov : ℕ → Pos) :
    (roundChanged ids cur mov = true →
      moverCount ids cur (resolveRound ids cur mov) < moverCount ids cur mov) ∧
    moverCount ids cur mov ≤ ids.length ∧
    roundChanged ids cur (conflictResolve ids cur mov) = false := by
  refine ⟨round_decreases ids cur mov, ?_, conflictResolve_fix ids cur mov⟩
  unfold moverCount
  exact List.length_filter_le _ _

/-- C9 witness: the termination theorem at a concrete two-car swap, where the
first round does change the move map. -/
theorem conflict_loop_terminates_witness :
    moverCount [0, 1] (fun n => if n = 0 then ((0 : ℤ), (0 : ℤ)) else ((1 : ℤ), (0 : ℤ)))
        (resolveRound [0, 1]
          (fun n => if n = 0 then ((0 : ℤ), (0 : ℤ)) else ((1 : ℤ), (0 : ℤ)))
          (fun n => if n = 0 then ((1 : ℤ), (0 : ℤ)) else ((0 : ℤ), (0 : ℤ)))) <
      moverCount [0, 1] (fun n => if n = 0 then ((0 : ℤ), (0 : ℤ)) else ((1 : ℤ), (0 : ℤ)))
        (fun n => if n = 0 then ((1 : ℤ), (0 : ℤ)) else ((0 : ℤ), (0 : ℤ))) ∧
    moverCount [0, 1] (fun n => if n = 0 then ((0 : ℤ), (0 : ℤ)) else ((1 : ℤ), (0 : ℤ)))
        (fun n => if n = 0 then ((1 : ℤ), (0 : ℤ)) else ((0 : ℤ), (0 : ℤ))) ≤
      ([0, 1] : List ℕ).length ∧
    roundChanged [0, 1] (fun n => if n = 0 then ((0 : ℤ), (0 : ℤ)) else ((1 : ℤ), (0 : ℤ)))
      (conflictResolve [0, 1]
        (fun n => if n = 0 then ((0 : ℤ), (0 : ℤ)) else ((1 : ℤ), (0 : ℤ)))
        (fun n => if n = 0 then ((1 : ℤ), (0 : ℤ)) else ((0 : ℤ), (0 : ℤ)))) = false :=
  ⟨(conflict_loop_terminates [0, 1]
      (fun n => if n = 0 then ((0 : ℤ), (0 : ℤ)) else ((1 : ℤ), (0 : ℤ)))
      (fun n => if n = 0 then ((1 : ℤ), (0 : ℤ)) else ((0 : ℤ), (0 : ℤ)))).1 (by decide),
   (conflict_loop_terminates [0, 1]
      (fun n => if n = 0 then ((0 : ℤ), (0 : ℤ)) else ((1 : ℤ), (0 : ℤ)))
      (fun n => if n = 0 then ((1 : ℤ), (0 : ℤ)) else ((0 : ℤ), (0 : ℤ)))).2.1,
   (conflict_loop_terminates [0, 1]
      (fun n => if n = 0 then ((0 : ℤ), (0 : ℤ)) else ((1 : ℤ), (0 : ℤ)))
      (fun n => if n = 0 then ((1 : ℤ), (0 : ℤ)) else ((0 : ℤ), (0 : ℤ)))).2.2⟩

lemma revertLosers_eq (cur : ℕ → Pos) (w : ℕ) (cids : List ℕ) :
    ∀ (m : ℕ → Pos) (c : ℕ),
      revertLosers cur w cids m c = if c ∈ cids ∧ c ≠ w then cur c else m c := by
  induction cids with
  | nil => intro m c; simp [revertLosers]
  | cons d ds ih =>
      intro m c
      unfold revertLosers
      simp only [List.foldl_cons]
      have ihx := ih (if d = w then m else Function.update m d (cur d)) c
      unfold revertLosers at ihx
      rw [ihx]
      by_cases h1 : c ∈ ds ∧ c ≠ w
      · rw [if_pos h1, if_pos ⟨List.mem_cons_of_mem d h1.1, h1.2⟩]
      · rw [if_neg h1]
        by_cases hd : d = w
        · rw [if_pos hd]
          rw [if_neg ?hng]
          case hng =>
            rintro ⟨hm, hw⟩
            rcases List.mem_cons.mp hm with h | h
            · exact hw (h.trans hd)
            · exact h1 ⟨h, hw⟩
        · rw [if_neg hd]
          by_cases hcd : c = d
          · subst hcd
            rw [Function.update_same, if_pos ⟨List.mem_cons_self c ds, hd⟩]
          · rw [Function.update_noteq hcd]
            rw [if_neg ?hng2]
            case hng2 =>
              rintro ⟨hm, hw⟩
              rcases List.mem_cons.mp hm with h | h
              · exact hcd h
              · exact h1 ⟨h, hw⟩

lemma targets_mem (ids : List ℕ) (mov : ℕ → Pos) (p : Pos) (c : ℕ) :
    c ∈ targets ids mov p ↔ c ∈ ids ∧ mov c = p := by
  unfold targets
  rw [List.mem_filter]
  simp

lemma vertexFold_eq (ids : List ℕ) (cur mov : ℕ → Pos) :
    ∀ (cells : List Pos) (m : ℕ → Pos) (c : ℕ),
      (cells.foldl
        (fun m1 p =>
          let cids := targets ids mov p
          if 1 < cids.length then revertLosers cur (vertexWinner cur p cids) cids m1
          else m1) m) c =
      if mov c ∈ cells ∧ c ∈ ids ∧ 1 < (targets ids mov (mov c)).length ∧
          c ≠ vertexWinner cur (mov c) (targets ids mov (mov c))
      then cur c else m c := by
  intro cells
  induction cells with
  | nil =>
      intro m c
      simp only [List.foldl_nil, List.not_mem_nil, false_and, if_false]
  | cons p ps ih =>
      intro m c
      simp only [List.foldl_cons]
      rw [ih]
      by_cases hps : mov c ∈ ps ∧ c ∈ ids ∧ 1 < (targets ids mov (mov c)).length ∧
          c ≠ vertexWinner cur (mov c) (targets ids mov (mov c))
      · rw [if_pos hps, if_pos ⟨List.mem_cons_of_mem p hps.1, hps.2⟩]
      · rw [if_neg hps]
        by_cases hmovp : mov c = p
        · subst hmovp
          by_cases hlen : 1 < (targets ids mov (mov c)).length
          · rw [if_pos hlen, revertLosers_eq]
            by_cases hcond : c ∈ targets ids mov (mov c) ∧
                c ≠ vertexWinner cur (mov c) (targets ids mov (mov c))
            · have hcid : c ∈ ids := ((targets_mem _ _ _ _).mp hcond.1).1
              rw [if_pos hcond,
                if_pos ⟨List.mem_cons_self _ _, hcid, hlen, hcond.2⟩]
            · rw [if_neg hcond, if_neg ?hng3]
              case hng3 =>
                rintro ⟨_, hcid, _, hw⟩
                exact hcond ⟨(targets_mem _ _ _ _).mpr ⟨hcid, rfl⟩, hw⟩
          · rw [if_neg hlen, if_neg ?hng4]
            case hng4 =>
              rintro ⟨_, _, hl, _⟩
              exact hlen hl
        · by_cases hlen : 1 < (targets ids mov p).length
          · rw [if_pos hlen, revertLosers_eq]
            rw [if_neg (fun hcond => hmovp ((targets_mem _ _ _ _).mp hcond.1).2),
              if_neg ?hng5]
            case hng5 =>
              rintro ⟨hm, hrest⟩
              rcases List.mem_cons.mp hm with h | h
              · exact hmovp h
              · exact hps ⟨h, hrest⟩
          · rw [if_neg hlen, if_neg ?hng6]
            case hng6 =>
              rintro ⟨hm, hrest⟩
              rcases List.mem_cons.mp hm with h | h
              · exact hmovp h
              · exact hps ⟨h, hrest⟩

/-- Pointwise description of the vertex pass: a car is reverted exactly when
its target cell is contested and it is not the winner. -/
lemma vertexPass_eq (ids : List ℕ) (cur mov : ℕ → Pos) (c : ℕ) :
    vertexPass ids cur mov c =
      if c ∈ ids ∧ 1 < (targets ids mov (mov c)).length ∧
          c ≠ vertexWinner cur (mov c) (targets ids mov (mov c))
      then cur c else mov c := by
  unfold vertexPass
  rw [vertexFold_eq]
  by_cases hc : c ∈ ids
  · have hmem : mov c ∈ (ids.map mov).dedup :=
      List.mem_dedup.mpr (List.mem_map_of_mem mov hc)
    by_cases hR : c ∈ ids ∧ 1 < (targets ids mov (mov c)).length ∧
        c ≠ vertexWinner cur (mov c) (targets ids mov (mov c))
    · rw [if_pos ⟨hmem, hR⟩, if_pos hR]
    · rw [if_neg (by rintro ⟨_, h⟩; exact hR h), if_neg hR]
  · rw [if_neg (by rintro ⟨_, h, _⟩; exact hc h), if_neg (by rintro ⟨h, _⟩; exact hc h)]

/-- Two cars form a swap in move map `m`: `c` moves off its cell into the
current cell of some car `b`, and `b` moves into `c`'s current cell. -/
def swapped (ids : List ℕ) (cur m : ℕ → Pos) (c : ℕ) : Prop :=
  m c ≠ cur c ∧ ∃ b ∈ ids, cur b = m c ∧ m b = cur c

instance (ids : List ℕ) (cur m : ℕ → Pos) (c : ℕ) : Decidable (swapped ids cur m c) := by
  unfold swapped
  infer_instance

/-- A car is already reverted after the scan has visited the prefix `P`: it is
swapped and either it or its swap partner has been scanned. -/
def swapCond (ids P : List ℕ) (cur m : ℕ → Pos) (c : ℕ) : Prop :=
  swapped ids cur m c ∧ (c ∈ P ∨ ∃ b ∈ P, cur b = m c ∧ m b = cur c)

instance (ids P : List ℕ) (cur m : ℕ → Pos) (c : ℕ) : Decidable (swapCond ids P cur m c) := by
  unfold swapCond
  infer_instance

/-- Invariant of the edge-swap scan after processing the prefix `P`. -/
def SwapInv (ids P : List ℕ) (cur m acc : ℕ → Pos) : Prop :=
  (∀ c ∈ ids, acc c = if swapCond ids P cur m c then cur c else m c) ∧
  (∀ c, c ∉ ids → acc c = m c)

lemma swapCond_mono {ids P Q : List ℕ} {cur m : ℕ → Pos} {c : ℕ}
    (hPQ : ∀ x ∈ P, x ∈ Q) (h : swapCond ids P cur m c) : swapCond ids Q cur m c := by
  obtain ⟨hs, hmem⟩ := h
  refine ⟨hs, ?_⟩
  rcases hmem with h1 | ⟨b, hb, h2⟩
  · left; exact hPQ c h1
  · right; exact ⟨b, hPQ b hb, h2⟩

lemma posToCid_some {ids : List ℕ} {cur : ℕ → Pos} {p : Pos} {b : ℕ}
    (h : posToCid ids cur p = some b) : b ∈ ids ∧ cur b = p := by
  unfold posToCid at h
  have h1 := List.find?_some h
  have h2 := List.mem_of_find?_eq_some h
  rw [List.mem_reverse] at h2
  simp only [decide_eq_true_eq] at h1
  exact ⟨h2, h1⟩

lemma posToCid_none {ids : List ℕ} {cur : ℕ → Pos} {p : Pos}
    (h : posToCid ids cur p = none) : ∀ b ∈ ids, cur b ≠ p := by
  unfold posToCid at h
  rw [List.find?_eq_none] at h
  intro b hb
  have := h b (List.mem_reverse.mpr hb)
  simpa using this

/-- If the scan has handled prefix `P` and every condition newly enabled by
scanning `a` was in fact already realized (or the value is already reverted),
the invariant transfers to `P ++ [a]`. -/
lemma swapInv_extend (ids P : List ℕ) (cur m acc : ℕ → Pos) (a : ℕ)
    (hInv : SwapInv ids P cur m acc)
    (hnew : ∀ c ∈ ids, swapCond ids (P ++ [a]) cur m c →
      swapCond ids P cur m c ∨ acc c = cur c) :
    SwapInv ids (P ++ [a]) cur m acc := by
  constructor
  · intro c hc
    have h0 := hInv.1 c hc
    by_cases hNc : swapCond ids (P ++ [a]) cur m c
    · rcases hnew c hc hNc with hOld | hCur
      · rw [if_pos hNc]
        rw [if_pos hOld] at h0
        exact h0
      · rw [if_pos hNc]
        exact hCur
    · rw [if_neg hNc]
      rw [if_neg (fun hOld => hNc
        (swapCond_mono (fun x hx => List.mem_append_left _ hx) hOld))] at h0
      exact h0
  · exact hInv.2

lemma swapStep_inv (ids : List ℕ) (cur m : ℕ → Pos)
    (hinj : ∀ x ∈ ids, ∀ y ∈ ids, cur x = cur y → x = y)
    (P : List ℕ) (hP : ∀ x ∈ P, x ∈ ids)
    (a : ℕ) (ha : a ∈ ids) (haP : a ∉ P)
    (acc : ℕ → Pos) (hInv : SwapInv ids P cur m acc) :
    SwapInv ids (P ++ [a]) cur m (swapStep cur ids acc a) := by
  have haccA := hInv.1 a ha
  have haInPa : a ∈ P ++ [a] := List.mem_append_right _ (List.mem_singleton_self a)
  by_cases hA : swapCond ids P cur m a
  · -- the scanned car was already reverted by its partner
    rw [if_pos hA] at haccA
    unfold swapStep
    rw [if_pos (by rw [haccA])]
    refine swapInv_extend ids P cur m acc a hInv ?_
    intro c hc hNc
    obtain ⟨hsc, hmem⟩ := hNc
    rcases hmem with hcP | ⟨b, hbP, hb1, hb2⟩
    · rcases List.mem_append.mp hcP with h1 | h1
      · left; exact ⟨hsc, Or.inl h1⟩
      · have hca : c = a := by simpa using h1
        subst hca
        right; exact haccA
    · rcases List.mem_append.mp hbP with h1 | h1
      · left; exact ⟨hsc, Or.inr ⟨b, h1, hb1, hb2⟩⟩
      · have hba : b = a := by simpa using h1
        subst hba
        obtain ⟨hsa, hmema⟩ := hA
        rcases hmema with h2 | ⟨b0, hb0P, hb01, hb02⟩
        · exact absurd h2 haP
        · have hb0c : b0 = c := hinj b0 (hP b0 hb0P) c hc (by rw [hb01, hb2])
          left
          exact ⟨hsc, Or.inl (hb0c ▸ hb0P)⟩
  · rw [if_neg hA] at haccA
    by_cases hma : m a = cur a
    · -- the scanned car intends to stay: the scan skips it
      unfold swapStep
      rw [if_pos (by rw [haccA, hma])]
      refine swapInv_extend ids P cur m acc a hInv ?_
      intro c hc hNc
      obtain ⟨hsc, hmem⟩ := hNc
      rcases hmem with hcP | ⟨b, hbP, hb1, hb2⟩
      · rcases List.mem_append.mp hcP with h1 | h1
        · left; exact ⟨hsc, Or.inl h1⟩
        · have hca : c = a := by simpa using h1
          subst hca
          exact absurd hma hsc.1
      · rcases List.mem_append.mp hbP with h1 | h1
        · left; exact ⟨hsc, Or.inr ⟨b, h1, hb1, hb2⟩⟩
        · have hba : b = a := by simpa using h1
          rw [hba] at hb2
          have hca : c = a := hinj c hc a ha (by rw [← hb2, hma])
          rw [hca] at hsc
          exact absurd hma hsc.1
    · -- the scanned car is a mover: inspect the car at its target cell
      unfold swapStep
      rw [if_neg (by rw [haccA]; exact hma), haccA]
      cases hfind : posToCid ids cur (m a) with
      | none =>
          have hnone := posToCid_none hfind
          refine swapInv_extend ids P cur m acc a hInv ?_
          intro c hc hNc
          obtain ⟨hsc, hmem⟩ := hNc
          rcases hmem with hcP | ⟨b, hbP, hb1, hb2⟩
          · rcases List.mem_append.mp hcP with h1 | h1
            · left; exact ⟨hsc, Or.inl h1⟩
            · have hca : c = a := by simpa using h1
              subst hca
              obtain ⟨_, b, hb, hcb, _⟩ := hsc
              exact absurd hcb (hnone b hb)
          · rcases List.mem_append.mp hbP with h1 | h1
            · left; exact ⟨hsc, Or.inr ⟨b, h1, hb1, hb2⟩⟩
            · have hba : b = a := by simpa using h1
              rw [hba] at hb2
              exact absurd hb2.symm (hnone c hc)
      | some b =>
          dsimp only
          obtain ⟨hb, hcb⟩ := posToCid_some hfind
          have hbna : b ≠ a := by
            intro hEq
            rw [hEq] at hcb
            exact hma hcb.symm
          have haccB := hInv.1 b hb
          by_cases hB : swapCond ids P cur m b
          · -- the partner candidate was already reverted: no swap fires
            rw [if_pos hB] at haccB
            rw [if_neg (by rw [haccB]; intro hEq; exact hbna (hinj b hb a ha hEq))]
            have hnsa : ¬ swapped ids cur m a := by
              rintro ⟨hma2, b', hb', hcb', hmb'⟩
              have hbb' : b' = b := hinj b' hb' b hb (by rw [hcb', hcb])
              rw [hbb'] at hmb'
              obtain ⟨hsb, hmemb⟩ := hB
              rcases hmemb with h1 | ⟨d, hdP, hd1, hd2⟩
              · exact hA ⟨⟨hma2, b, hb, hcb, hmb'⟩, Or.inr ⟨b, h1, hcb, hmb'⟩⟩
              · have hda : d = a := hinj d (hP d hdP) a ha (by rw [hd1, hmb'])
                exact haP (hda ▸ hdP)
            refine swapInv_extend ids P cur m acc a hInv ?_
            intro c hc hNc
            obtain ⟨hsc, hmem⟩ := hNc
            rcases hmem with hcP | ⟨b', hb'P, hb'1, hb'2⟩
            · rcases List.mem_append.mp hcP with h1 | h1
              · left; exact ⟨hsc, Or.inl h1⟩
              · have hca : c = a := by simpa using h1
                subst hca
                exact absurd hsc hnsa
            · rcases List.mem_append.mp hb'P with h1 | h1
              · left; exact ⟨hsc, Or.inr ⟨b', h1, hb'1, hb'2⟩⟩
              · have hb'a : b' = a := by simpa using h1
                subst hb'a
                have hcb2 : c = b := hinj c hc b hb (by rw [← hb'2, hcb])
                subst hcb2
                right; exact haccB
          · rw [if_neg hB] at haccB
            by_cases hfire : m b = cur a
            · -- swap detected: both cars are reverted
              rw [if_pos (by rw [haccB]; exact hfire)]
              have hsa : swapped ids cur m a := ⟨hma, b, hb, hcb, hfire⟩
              have hsb : swapped ids cur m b := by
                refine ⟨?_, a, ha, hfire.symm, hcb.symm⟩
                rw [hfire]
                intro hEq
                exact hbna (hinj b hb a ha hEq.symm)
              constructor
              · intro c hc
                by_cases hcb2 : c = b
                · subst hcb2
                  rw [Function.update_same]
                  rw [if_pos ⟨hsb, Or.inr ⟨a, haInPa, hfire.symm, hcb.symm⟩⟩]
                · rw [Function.update_noteq hcb2]
                  by_cases hca2 : c = a
                  · subst hca2
                    rw [Function.update_same]
                    rw [if_pos ⟨hsa, Or.inl haInPa⟩]
                  · rw [Function.update_noteq hca2]
                    have h0 := hInv.1 c hc
                    by_cases hNc : swapCond ids (P ++ [a]) cur m c
                    · rw [if_pos hNc]
                      obtain ⟨hsc, hmem⟩ := hNc
                      rcases hmem with hcP | ⟨b', hb'P, hb'1, hb'2⟩
                      · rcases List.mem_append.mp hcP with h1 | h1
                        · rw [if_pos ⟨hsc, Or.inl h1⟩] at h0
                          exact h0
                        · exact absurd (by simpa using h1) hca2
                      · rcases List.mem_append.mp hb'P with h1 | h1
                        · rw [if_pos ⟨hsc, Or.inr ⟨b', h1, hb'1, hb'2⟩⟩] at h0
                          exact h0
                        · have hb'a : b' = a := by simpa using h1
                          subst hb'a
                          exact absurd (hinj c hc b hb (by rw [← hb'2, hcb])) hcb2
                    · rw [if_neg hNc]
                      rw [if_neg (fun hOld => hNc
                        (swapCond_mono (fun x hx => List.mem_append_left _ hx) hOld))] at h0
                      exact h0
              · intro c hc
                rw [Function.update_noteq (fun hEq => hc (show c ∈ ids by rw [hEq]; exact hb)),
                  Function.update_noteq (fun hEq => hc (show c ∈ ids by rw [hEq]; exact ha))]
                exact hInv.2 c hc
            · -- the car at the target cell is not moving into `a`'s cell
              rw [if_neg (by rw [haccB]; exact hfire)]
              have hnsa : ¬ swapped ids cur m a := by
                rintro ⟨hma2, b', hb', hcb', hmb'⟩
                have hbb' : b' = b := hinj b' hb' b hb (by rw [hcb', hcb])
                rw [hbb'] at hmb'
                exact hfire hmb'
              refine swapInv_extend ids P cur m acc a hInv ?_
              intro c hc hNc
              obtain ⟨hsc, hmem⟩ := hNc
              rcases hmem with hcP | ⟨b', hb'P, hb'1, hb'2⟩
              · rcases List.mem_append.mp hcP with h1 | h1
                · left; exact ⟨hsc, Or.inl h1⟩
                · have hca : c = a := by simpa using h1
                  subst hca
                  exact absurd hsc hnsa
              · rcases List.mem_append.mp hb'P with h1 | h1
                · left; exact ⟨hsc, Or.inr ⟨b', h1, hb'1, hb'2⟩⟩
                · have hb'a : b' = a := by simpa using h1
                  subst hb'a
                  exact absurd ⟨hma, c, hc, hb'2.symm, hb'1.symm⟩ hnsa

lemma swapFold_inv (ids : List ℕ) (cur m : ℕ → Pos)
    (hinj : ∀ x ∈ ids, ∀ y ∈ ids, cur x = cur y → x = y) (hnd : ids.Nodup) :
    ∀ (todo P : List ℕ), ids = P ++ todo → ∀ acc, SwapInv ids P cur m acc →
      SwapInv ids (P ++ todo) cur m (todo.foldl (swapStep cur ids) acc) := by
  intro todo
  induction todo with
  | nil =>
      intro P hPt acc hInv
      simpa using hInv
  | cons a todo' ih =>
      intro P hPt acc hInv
      simp only [List.foldl_cons]
      have ha : a ∈ ids := by
        rw [hPt]; exact List.mem_append_right P (List.mem_cons_self a todo')
      have haP : a ∉ P := by
        intro hmem
        have hnd2 := hPt ▸ hnd
        exact (List.disjoint_of_nodup_append hnd2) hmem (List.mem_cons_self a todo')
      have hPsub : ∀ x ∈ P, x ∈ ids := fun x hx => by
        rw [hPt]; exact List.mem_append_left _ hx
      have hstep := swapStep_inv ids cur m hinj P hPsub a ha haP acc hInv
      have hrec := ih (P ++ [a]) (by rw [hPt]; simp) _ hstep
      rw [List.append_assoc] at hrec
      simpa using hrec

/-- Pointwise description of the edge-swap pass: exactly the cars involved in
a swap (with respect to the pass's input map) are reverted. -/
lemma swapPass_eq (ids : List ℕ) (cur m : ℕ → Pos)
    (hinj : ∀ x ∈ ids, ∀ y ∈ ids, cur x = cur y → x = y) (hnd : ids.Nodup) (c : ℕ) :
    swapPass ids cur m c = if c ∈ ids ∧ swapped ids cur m c then cur c else m c := by
  have hInv0 : SwapInv ids [] cur m m := by
    constructor
    · intro c hc
      rw [if_neg ?hng]
      case hng =>
        rintro ⟨_, h | ⟨b, hb, _⟩⟩
        · cases h
        · cases hb
    · intro c _; rfl
  have h := swapFold_inv ids cur m hinj hnd ids [] rfl m hInv0
  unfold swapPass
  by_cases hc : c ∈ ids
  · have h1 := h.1 c hc
    simp only [List.nil_append] at h1
    rw [h1]
    by_cases hs : swapped ids cur m c
    · rw [if_pos ⟨hs, Or.inl hc⟩, if_pos ⟨hc, hs⟩]
    · rw [if_neg (fun hcond => hs hcond.1), if_neg (fun hcond => hs hcond.2)]
  · rw [h.2 c hc, if_neg (fun hcond => hc hcond.1)]

/-- C6 spec wording: a car loses a vertex conflict iff its target cell is
contested and it is not the winner; the winner is a car already located at the
cell if one exists, otherwise the car with the smallest id. -/
def specLoser (ids : List ℕ) (cur mov : ℕ → Pos) (c : ℕ) : Prop :=
  1 < (targets ids mov (mov c)).length ∧
    ((∃ w ∈ targets ids mov (mov c), cur w = mov c ∧ c ≠ w) ∨
     ((∀ w ∈ targets ids mov (mov c), cur w ≠ mov c) ∧
       c ≠ listMin (targets ids mov (mov c))))

instance (ids : List ℕ) (cur mov : ℕ → Pos) (c : ℕ) : Decidable (specLoser ids cur mov c) := by
  unfold specLoser
  infer_instance

/-- C6 spec wording: the vertex rule applied in parallel. -/
def specVertex (ids : List ℕ) (cur mov : ℕ → Pos) : ℕ → Pos :=
  fun c => if c ∈ ids ∧ specLoser ids cur mov c then cur c else mov c

/-- C6 spec wording: the edge-swap rule applied in parallel. -/
def specSwap (ids : List ℕ) (cur m : ℕ → Pos) : ℕ → Pos :=
  fun c => if c ∈ ids ∧ swapped ids cur m c then cur c else m c

/-- C6 spec wording: one application of the two rules. -/
def specRound (ids : List ℕ) (cur mov : ℕ → Pos) : ℕ → Pos :=
  specSwap ids cur (specVertex ids cur mov)

lemma targets_subset (ids : List ℕ) (mov : ℕ → Pos) (p : Pos) :
    ∀ x ∈ targets ids mov p, x ∈ ids := by
  intro x hx
  exact ((targets_mem _ _ _ _).mp hx).1

lemma loser_iff_specLoser (ids : List ℕ) (cur mov : ℕ → Pos)
    (hinj : ∀ x ∈ ids, ∀ y ∈ ids, cur x = cur y → x = y) (c : ℕ) :
    (1 < (targets ids mov (mov c)).length ∧
      c ≠ vertexWinner cur (mov c) (targets ids mov (mov c))) ↔
    specLoser ids cur mov c := by
  unfold specLoser vertexWinner
  cases hf : (targets ids mov (mov c)).find? (fun cid => decide (cur cid = mov c)) with
  | some w =>
      have hw1 : cur w = mov c := by simpa using List.find?_some hf
      have hw2 : w ∈ targets ids mov (mov c) := List.mem_of_find?_eq_some hf
      constructor
      · rintro ⟨hlen, hne⟩
        exact ⟨hlen, Or.inl ⟨w, hw2, hw1, hne⟩⟩
      · rintro ⟨hlen, hdis⟩
        refine ⟨hlen, ?_⟩
        rcases hdis with ⟨w', hw', hcw', hne'⟩ | ⟨hall, _⟩
        · have : w' = w :=
            hinj w' (targets_subset _ _ _ w' hw') w (targets_subset _ _ _ w hw2)
              (by rw [hcw', hw1])
          rw [← this]
          exact hne'
        · exact absurd hw1 (hall w hw2)
  | none =>
      have hnone : ∀ w ∈ targets ids mov (mov c), cur w ≠ mov c := by
        intro w hw
        have := List.find?_eq_none.mp hf w hw
        simpa using this
      constructor
      · rintro ⟨hlen, hne⟩
        exact ⟨hlen, Or.inr ⟨hnone, hne⟩⟩
      · rintro ⟨hlen, hdis⟩
        refine ⟨hlen, ?_⟩
        rcases hdis with ⟨w', hw', hcw', _⟩ | ⟨_, hne⟩
        · exact absurd hcw' (hnone w' hw')
        · exact hne

lemma vertexPass_eq_spec (ids : List ℕ) (cur mov : ℕ → Pos)
    (hinj : ∀ x ∈ ids, ∀ y ∈ ids, cur x = cur y → x = y) :
    vertexPass ids cur mov = specVertex ids cur mov := by
  funext c
  rw [vertexPass_eq]
  unfold specVertex
  by_cases hc : c ∈ ids
  · by_cases hl : specLoser ids cur mov c
    · rw [if_pos ⟨hc, ((loser_iff_specLoser ids cur mov hinj c).mpr hl).1,
        ((loser_iff_specLoser ids cur mov hinj c).mpr hl).2⟩, if_pos ⟨hc, hl⟩]
    · rw [if_neg ?hng1, if_neg (fun hcond => hl hcond.2)]
      case hng1 =>
        rintro ⟨_, h1, h2⟩
        exact hl ((loser_iff_specLoser ids cur mov hinj c).mp ⟨h1, h2⟩)
  · rw [if_neg (fun hcond => hc hcond.1), if_neg (fun hcond => hc hcond.1)]

/-- One round of the implementation agrees everywhere with one parallel
application of the spec's two rules. -/
def roundMatchesSpec (ids : List ℕ) (cur mov : ℕ → Pos) : Prop :=
  ∀ c, resolveRound ids cur mov c = specRound ids cur mov c

/-- C6: per-tick conflict resolution follows the specified rules: each round
reverts exactly the losers of contested cells (winner: a car already at the
cell if one exists, else the smallest id) and then both members of every edge
swap, and the loop applies rounds repeatedly until a fixpoint, reached with
the given fuel. -/
theorem conflict_resolution_matches_spec (ids : List ℕ) (cur mov : ℕ → Pos)
    (hnd : ids.Nodup)
    (hinj : ∀ x ∈ ids, ∀ y ∈ ids, cur x = cur y → x = y) :
    roundMatchesSpec ids cur mov ∧
    roundChanged ids cur (conflictResolve ids cur mov) = false := by
  constructor
  · intro c
    unfold resolveRound specRound
    rw [vertexPass_eq_spec ids cur mov hinj]
    rw [swapPass_eq ids cur (specVertex ids cur mov) hinj hnd c]
    rfl
  · exact conflictResolve_fix ids cur mov

/-- C6 witness: the rules theorem applied to two cars attempting a swap. -/
theorem conflict_resolution_matches_spec_witness :
    roundMatchesSpec [0, 1]
      (fun n => if n = 0 then ((0 : ℤ), (0 : ℤ)) else ((1 : ℤ), (0 : ℤ)))
      (fun n => if n = 0 then ((1 : ℤ), (0 : ℤ)) else ((0 : ℤ), (0 : ℤ))) ∧
    roundChanged [0, 1]
      (fun n => if n = 0 then ((0 : ℤ), (0 : ℤ)) else ((1 : ℤ), (0 : ℤ)))
      (conflictResolve [0, 1]
        (fun n => if n = 0 then ((0 : ℤ), (0 : ℤ)) else ((1 : ℤ), (0 : ℤ)))
        (fun n => if n = 0 then ((1 : ℤ), (0 : ℤ)) else ((0 : ℤ), (0 : ℤ)))) = false :=
  conflict_resolution_matches_spec [0, 1]
    (fun n => if n = 0 then ((0 : ℤ), (0 : ℤ)) else ((1 : ℤ), (0 : ℤ)))
    (fun n => if n = 0 then ((1 : ℤ), (0 : ℤ)) else ((0 : ℤ), (0 : ℤ)))
    (by decide) (by decide)

lemma two_mem_one_lt_length {l : List ℕ} {x y : ℕ} (hx : x ∈ l) (hy : y ∈ l)
    (hne : x ≠ y) : 1 < l.length := by
  cases l with
  | nil => cases hx
  | cons a l' =>
      cases l' with
      | nil =>
          simp only [List.mem_singleton] at hx hy
          exact absurd (hx.trans hy.symm) hne
      | cons b l'' => simp only [List.length_cons]; omega

lemma vertexWinner_at_cell {ids : List ℕ} {cur mov : ℕ → Pos} {p : Pos} {v : ℕ}
    (hv : v ∈ targets ids mov p) (hcv : cur v = p) :
    vertexWinner cur p (targets ids mov p) ∈ targets ids mov p ∧
      cur (vertexWinner cur p (targets ids mov p)) = p := by
  unfold vertexWinner
  cases hf : (targets ids mov p).find? (fun cid => decide (cur cid = p)) with
  | some w =>
      exact ⟨List.mem_of_find?_eq_some hf, by simpa using List.find?_some hf⟩
  | none =>
      have := List.find?_eq_none.mp hf v hv
      simp only [decide_eq_true_eq] at this
      exact absurd hcv this

/-- At a fixpoint of the conflict-resolution round, the move map is injective
on cars whose current positions are pairwise distinct: no two cars are allowed
into the same cell. -/
lemma fix_moves_inj (ids : List ℕ) (cur m : ℕ → Pos)
    (hinj : ∀ x ∈ ids, ∀ y ∈ ids, cur x = cur y → x = y)
    (hfix : roundChanged ids cur m = false) :
    ∀ x ∈ ids, ∀ y ∈ ids, m x = m y → x = y := by
  have hfixc : ∀ c ∈ ids, resolveRound ids cur m c = m c := by
    unfold roundChanged at hfix
    simp only [Bool.not_eq_false', List.all_eq_true, decide_eq_true_eq] at hfix
    exact hfix
  have hvp : ∀ c ∈ ids, vertexPass ids cur m c = m c := by
    intro c hc
    by_contra hvne
    have h1 : vertexPass ids cur m c = cur c := by
      rw [vertexPass_eq] at hvne ⊢
      by_cases hcond : c ∈ ids ∧ 1 < (targets ids m (m c)).length ∧
          c ≠ vertexWinner cur (m c) (targets ids m (m c))
      · rw [if_pos hcond]
      · rw [if_neg hcond] at hvne
        exact absurd rfl hvne
    have h2 := swapPass_revert ids ids cur (vertexPass ids cur m)
      (vertexPass ids cur m) c (Or.inl rfl)
    have h3 : resolveRound ids cur m c = cur c := by
      unfold resolveRound swapPass
      unfold swapPass at h2
      rcases h2 with h | h
      · rw [h, h1]
      · rw [h]
    have h4 := hfixc c hc
    rw [h3] at h4
    exact hvne (h1.trans h4)
  intro x hx y hy hmxy
  by_contra hne
  have hxT : x ∈ targets ids m (m x) := (targets_mem _ _ _ _).mpr ⟨hx, rfl⟩
  have hyT : y ∈ targets ids m (m x) := (targets_mem _ _ _ _).mpr ⟨hy, hmxy.symm⟩
  have hlen : 1 < (targets ids m (m x)).length := two_mem_one_lt_length hxT hyT hne
  have key : ∀ c ∈ ids, m c = m x →
      c ≠ vertexWinner cur (m x) (targets ids m (m x)) → cur c = m x := by
    intro c hc hmc hcw
    have heq := vertexPass_eq ids cur m c
    rw [hvp c hc] at heq
    rw [hmc] at heq
    rw [if_pos ⟨hc, hlen, hcw⟩] at heq
    exact heq.symm
  by_cases hxw : x = vertexWinner cur (m x) (targets ids m (m x))
  · have hyw : y ≠ vertexWinner cur (m x) (targets ids m (m x)) := by
      rw [← hxw]; exact fun h => hne h.symm
    have hcy : cur y = m x := key y hy hmxy.symm hyw
    obtain ⟨hwT, hcw⟩ := vertexWinner_at_cell hyT hcy
    have : y = vertexWinner cur (m x) (targets ids m (m x)) :=
      hinj y hy _ (targets_subset _ _ _ _ hwT) (by rw [hcy, hcw])
    exact hyw this
  · have hcx : cur x = m x := key x hx rfl hxw
    obtain ⟨hwT, hcw⟩ := vertexWinner_at_cell hxT hcx
    have : x = vertexWinner cur (m x) (targets ids m (m x)) :=
      hinj x hx _ (targets_subset _ _ _ _ hwT) (by rw [hcx, hcw])
    exact hxw this

/-! ### The tick skeleton (`simulation_core.py`, `step`, lines 609-614)

The model below follows `SimulationCore.step` phase by phase: cleanup of
exited cars, waking of waiting cars, `_advance_cars` (planning, intended
moves, conflict resolution, commit), Poisson arrival, and the time increment.

Cars' goals, intents, paths and the parking-assignment map influence the
published positions snapshot only through (i) the per-car intended next
position produced by `peek_at_next_step` and (ii) which cars deactivate at
their goal; these values, together with all random draws, are supplied by a
`StepOracle`.  The planning and escalation code (lines 214-318 and the
bookkeeping inside the commit branch) mutates only goals, paths, the
reservation table and the parking sets - never `car_positions` or the key
sets of `active_cars` - so its effect on the carried `freeSpots`/`resTable`
fields is likewise supplied by the oracle, once per phase. -/

/-- `SimulationConfig`; the two float fields are modelled as rationals. -/
structure SimConfig where
  planningHorizon : ℕ
  goalReserveHorizon : ℕ
  arrivalLambda : ℚ
  maxArrivingCars : ℕ
  initialParkedCars : ℕ
  initialActiveCars : ℕ
  initialActiveExitRate : ℚ

/-- The position-determining slice of `SimulationCore` state. -/
structure SimState where
  positions : List (ℕ × Pos)
  active : List ℕ
  waiting : List ℕ
  pending : List ℕ
  freeSpots : Finset Pos
  resTable : ReservationTable
  entryCells : List Pos
  nextCarId : ℕ
  time : ℕ
  arrivingCreated : ℕ

/-- Everything one `step()` consumes that the skeleton does not compute
itself: random draws, the planner-derived intended moves, goal-completion
outcomes, and the planning phases' effect on the parking/reservation sets. -/
structure StepOracle where
  wakeDraw : ℕ → ℚ
  intended : ℕ → Pos
  deactivate : ℕ → Bool
  exitNow : ℕ → Bool
  entryShuffle : List Pos
  arrivalRand : ℚ
  afterWake : SimState → Finset Pos × ReservationTable
  afterPlanning : SimState → Finset Pos × ReservationTable
  afterCommit : SimState → Finset Pos × ReservationTable
  afterArrival : SimState → Finset Pos × ReservationTable

/-- Keys of the `car_positions` dict, in insertion order. -/
def keysOf (ps : List (ℕ × Pos)) : List ℕ := ps.map Prod.fst

/-- Values of the `car_positions` dict, in insertion order. -/
def valuesOf (ps : List (ℕ × Pos)) : List Pos := ps.map Prod.snd

/-- `car_positions[cid]`. -/
def lookupPos (ps : List (ℕ × Pos)) (cid : ℕ) : Option Pos :=
  (ps.find? (fun kv => decide (kv.1 = cid))).map Prod.snd

/-- `car_positions[cid] = p`: dict assignment keeps the insertion order of an
existing key and appends a new key. -/
def setPos (ps : List (ℕ × Pos)) (cid : ℕ) (p : Pos) : List (ℕ × Pos) :=
  if cid ∈ keysOf ps then ps.map (fun kv => if kv.1 = cid then (cid, p) else kv)
  else ps ++ [(cid, p)]

/-- `_cleanup_exited_cars` (lines 602-607). -/
def cleanupPhase (s : SimState) : SimState :=
  { s with positions := s.positions.filter (fun kv => decide (kv.1 ∉ s.pending)),
           pending := [] }

/-- Apply an oracle-supplied planning effect on the parking and reservation
sets. -/
def withFreeRes (s : SimState) (fr : Finset Pos × ReservationTable) : SimState :=
  { s with freeSpots := fr.1, resTable := fr.2 }

/-- `_process_waiting_active_cars` (lines 155-191): each waiting car wakes with
probability `initial_active_exit_rate`; a woken car's static reservation is
removed, its spot is returned to `free_spots`, and `_handle_new_car`
re-registers it (its key and value are already present, so the snapshot is
unchanged).  A woken id absent from the snapshot cannot occur in the source
(every waiting car was registered at construction); the model skips it. -/
def wakeBody (st : SimState) (cid : ℕ) : SimState :=
  match lookupPos st.positions cid with
  | none => st
  | some cpos =>
    { st with
      resTable := st.resTable.unreserveGoal cpos.1 cpos.2,
      freeSpots := insert cpos st.freeSpots,
      positions := setPos st.positions cid cpos,
      active := if cid ∈ st.active then st.active else st.active ++ [cid] }

def wakePhase (cfg : SimConfig) (o : StepOracle) (s : SimState) : SimState :=
  let woke := s.waiting.filter (fun cid => decide (o.wakeDraw cid < cfg.initialActiveExitRate))
  let s1 := { s with
    waiting := s.waiting.filter (fun cid => !(decide (o.wakeDraw cid < cfg.initialActiveExitRate))) }
  let s2 := woke.foldl wakeBody s1
  withFreeRes s2 (o.afterWake s2)

/-- The key order of `intended_moves`/`active_moves`: the active cars in
insertion order, then the remaining snapshot cars (lines 329-340). -/
def advanceIds (s : SimState) : List ℕ :=
  s.active ++ (keysOf s.positions).filter (fun cid => decide (cid ∉ s.active))

/-- `current_positions[cid]` as a total function over car ids. -/
def advanceCur (s : SimState) : ℕ → Pos :=
  fun cid => (lookupPos s.positions cid).getD ((0 : ℤ), (0 : ℤ))

/-- The intended-move map: `peek_at_next_step` (oracle) for active cars,
"staying put" for the other snapshot cars. -/
def advanceMoves (o : StepOracle) (s : SimState) : ℕ → Pos :=
  fun cid => if cid ∈ s.active then o.intended cid else advanceCur s cid

/-- The moves after the iterative conflict resolution. -/
def advanceResolved (o : StepOracle) (s : SimState) : ℕ → Pos :=
  conflictResolve (advanceIds s) (advanceCur s) (advanceMoves o s)

/-- `_advance_cars` (lines 255-534): the planning phase (oracle effect), then
intended moves, iterative conflict resolution and the commit.  Committed
positions are the resolved moves of the active cars; parked cars keep their
cells.  Cars that reached their goal leave the active set, EXIT completions
additionally join `cars_pending_removal`. -/
def advancePhase (o : StepOracle) (s : SimState) : SimState :=
  let s0 := withFreeRes s (o.afterPlanning s)
  let s1 := { s0 with
    positions := s0.positions.map
      (fun kv => if kv.1 ∈ s0.active then (kv.1, advanceResolved o s0 kv.1) else kv),
    active := s0.active.filter (fun cid => !(o.deactivate cid)),
    pending := s0.pending ++ s0.active.filter (fun cid => o.deactivate cid && o.exitNow cid) }
  withFreeRes s1 (o.afterCommit s1)

/-- Admissibility of an entry cell in `_get_free_entry` (lines 537-562):
spatially free now and reservation-free for the next 20 ticks. -/
def entryAdmissible (positions : List (ℕ × Pos)) (rt : ReservationTable) (time : ℕ)
    (e : Pos) : Bool :=
  decide (e ∉ valuesOf positions) &&
    (List.range 20).all (fun off => rt.isCellFree e.1 e.2 (time + off))

/-- `_get_free_entry`: the first admissible entry of the shuffled entry list. -/
def getFreeEntry (entries : List Pos) (positions : List (ℕ × Pos))
    (rt : ReservationTable) (time : ℕ) : Option Pos :=
  entries.find? (entryAdmissible positions rt time)

/-- `_maybe_poisson_arrival` (lines 193-212): guarded spawn of one arriving
car at a free entry with probability `arrival_lambda`. -/
def arrivalPhase (cfg : SimConfig) (o : StepOracle) (s : SimState) : SimState :=
  if cfg.maxArrivingCars ≤ s.arrivingCreated then s
  else if s.freeSpots = ∅ then s
  else
    match getFreeEntry o.entryShuffle s.positions s.resTable s.time with
    | none => s
    | some e =>
      if o.arrivalRand < cfg.arrivalLambda then
        let cid := s.nextCarId
        let s1 := { s with
          nextCarId := s.nextCarId + 1,
          arrivingCreated := s.arrivingCreated + 1,
          positions := setPos s.positions cid e }
        let s2 := { s1 with
          active := if cid ∈ s1.active then s1.active else s1.active ++ [cid],
          positions := setPos s1.positions cid e }
        withFreeRes s2 (o.afterArrival s2)
      else s

/-- `SimulationCore.step` (lines 609-614). -/
def simStep (cfg : SimConfig) (o : StepOracle) (s : SimState) : SimState :=
  let s1 := cleanupPhase s
  let s2 := wakePhase cfg o s1
  let s3 := advancePhase o s2
  let s4 := arrivalPhase cfg o s3
  { s4 with time := s4.time + 1 }

/-- `SimulationCore.run` (lines 616-639), with fuel for the unbounded loop:
step, then stop once the active set is empty and either the arrival budget is
exhausted or `arrival_lambda == 0`. -/
def simRunAux (cfg : SimConfig) (orc : ℕ → StepOracle) : ℕ → SimState → Option SimState
  | 0, _ => none
  | fuel + 1, s =>
    let s' := simStep cfg (orc s.time) s
    if s'.active = [] ∧ (cfg.maxArrivingCars ≤ s'.arrivingCreated ∨ cfg.arrivalLambda = 0)
    then some s'
    else simRunAux cfg orc fuel s'

/-! ### `_initialize_cars` (lines 71-131) and reachable states -/

/-- One iteration of the initial parked-car loop (lines 87-101):
`create_parked_car` draws a free spot, removes it from `free_spots`, the core
registers the position and statically reserves the spot.  (The occupied set
lives in the parking-manager model below.) -/
def initParkedStep (pick : Pos) (s : SimState) : SimState :=
  { s with
    freeSpots := s.freeSpots.erase pick,
    positions := s.positions ++ [(s.nextCarId, pick)],
    resTable := s.resTable.reserveGoal pick.1 pick.2,
    nextCarId := s.nextCarId + 1 }

/-- One iteration of the initial active-car loop (lines 106-131): a free spot
is drawn and removed, the car is registered active and waiting, and its spot
is statically reserved. -/
def initActiveStep (pick : Pos) (s : SimState) : SimState :=
  { s with
    freeSpots := s.freeSpots.erase pick,
    positions := s.positions ++ [(s.nextCarId, pick)],
    active := s.active ++ [s.nextCarId],
    waiting := s.waiting ++ [s.nextCarId],
    resTable := s.resTable.reserveGoal pick.1 pick.2,
    nextCarId := s.nextCarId + 1 }

/-- The `for _ in range(n)` loops of `_initialize_cars`, breaking when no free
spot remains; the random `random.choice(list(free_spots))` draw is an oracle
`pick` constrained (at the `Reachable` constructor) to return a member. -/
def initLoop (stepF : Pos → SimState → SimState) (pick : ℕ → Finset Pos → Pos) :
    ℕ → SimState → SimState
  | 0, s => s
  | n + 1, s =>
    if s.freeSpots = ∅ then s
    else initLoop stepF pick n (stepF (pick n s.freeSpots) s)

/-- The capacity cap of lines 74-84: if the initial cars exceed the number of
parking cells, `initial_active_cars` is capped to the remainder. -/
def capActive (cfg : SimConfig) (total : ℕ) : ℕ :=
  if total < cfg.initialParkedCars + cfg.initialActiveCars then
    (if total - cfg.initialParkedCars < cfg.initialActiveCars then
      total - cfg.initialParkedCars
     else cfg.initialActiveCars)
  else cfg.initialActiveCars

/-- `SimulationCore.__init__` + `_initialize_cars`, for a lot whose parking
cells are `parkingCells`. -/
def initCars (cfg : SimConfig) (parkingCells : Finset Pos) (entryCells : List Pos)
    (pickP pickA : ℕ → Finset Pos → Pos) : SimState :=
  let s0 : SimState :=
    { positions := [], active := [], waiting := [], pending := [],
      freeSpots := parkingCells, resTable := ⟨∅, ∅, ∅⟩,
      entryCells := entryCells, nextCarId := 0, time := 0, arrivingCreated := 0 }
  let s1 := initLoop initParkedStep pickP cfg.initialParkedCars s0
  initLoop initActiveStep pickA (capActive cfg parkingCells.card) s1

/-- States a run can be in: freshly constructed, or one `step()` later.  The
constructors carry the facts the source guarantees about its random draws:
`random.choice` returns a member of its (non-empty) argument. -/
inductive Reachable (cfg : SimConfig) (orc : ℕ → StepOracle) : SimState → Prop
  | init (parkingCells : Finset Pos) (entryCells : List Pos)
      (pickP pickA : ℕ → Finset Pos → Pos)
      (hpickP : ∀ i fs, fs.Nonempty → pickP i fs ∈ fs)
      (hpickA : ∀ i fs, fs.Nonempty → pickA i fs ∈ fs) :
      Reachable cfg orc (initCars cfg parkingCells entryCells pickP pickA)
  | step (s : SimState) (h : Reachable cfg orc s) :
      Reachable cfg orc (simStep cfg (orc s.time) s)

/-- The structural invariant of the position snapshot: keys are distinct and
below the id counter, values (cells) are pairwise distinct, active and pending
cars are registered, and pending cars are no longer active. -/
def SimInv (s : SimState) : Prop :=
  (keysOf s.positions).Nodup ∧
  (valuesOf s.positions).Nodup ∧
  (∀ cid ∈ keysOf s.positions, cid < s.nextCarId) ∧
  (∀ cid ∈ s.active, cid ∈ keysOf s.positions) ∧
  (∀ cid ∈ s.pending, cid ∈ keysOf s.positions) ∧
  (∀ cid ∈ s.pending, cid ∉ s.active)

lemma mem_keysOf {ps : List (ℕ × Pos)} {cid : ℕ} :
    cid ∈ keysOf ps ↔ ∃ p, (cid, p) ∈ ps := by
  unfold keysOf
  rw [List.mem_map]
  constructor
  · rintro ⟨kv, hkv, rfl⟩
    exact ⟨kv.2, hkv⟩
  · rintro ⟨p, hp⟩
    exact ⟨(cid, p), hp, rfl⟩

lemma lookupPos_some_mem {ps : List (ℕ × Pos)} {cid : ℕ} {p : Pos}
    (h : lookupPos ps cid = some p) : (cid, p) ∈ ps := by
  unfold lookupPos at h
  cases hf : ps.find? (fun kv => decide (kv.1 = cid)) with
  | none => rw [hf] at h; cases h
  | some kv =>
      rw [hf] at h
      have h1 := List.find?_some hf
      have h2 := List.mem_of_find?_eq_some hf
      simp only [decide_eq_true_eq] at h1
      simp only [Option.map_some'] at h
      cases h
      rw [← h1]
      exact h2

lemma lookupPos_mem_some {ps : List (ℕ × Pos)} {cid : ℕ} {p : Pos}
    (hnd : (keysOf ps).Nodup) (h : (cid, p) ∈ ps) : lookupPos ps cid = some p := by
  induction ps with
  | nil => cases h
  | cons kv t ih =>
      unfold keysOf at hnd
      simp only [List.map_cons, List.nodup_cons] at hnd
      rcases List.mem_cons.mp h with h1 | h1
      · unfold lookupPos
        rw [← h1]
        simp [List.find?_cons]
      · have hne : kv.1 ≠ cid := by
          intro hEq
          apply hnd.1
          rw [hEq]
          exact mem_keysOf.mpr ⟨p, h1⟩
        unfold lookupPos
        simp only [List.find?_cons, decide_eq_false hne]
        exact ih hnd.2 h1

lemma values_inj {ps : List (ℕ × Pos)} (hv : (valuesOf ps).Nodup)
    {a b : ℕ × Pos} (ha : a ∈ ps) (hb : b ∈ ps) (hab : a.2 = b.2) : a = b := by
  induction ps with
  | nil => cases ha
  | cons kv t ih =>
      unfold valuesOf at hv
      simp only [List.map_cons, List.nodup_cons] at hv
      rcases List.mem_cons.mp ha with h1 | h1
      · rcases List.mem_cons.mp hb with h2 | h2
        · rw [h1, h2]
        · exfalso
          apply hv.1
          rw [← h1, hab]
          exact List.mem_map_of_mem Prod.snd h2
      · rcases List.mem_cons.mp hb with h2 | h2
        · exfalso
          apply hv.1
          rw [← h2, ← hab]
          exact List.mem_map_of_mem Prod.snd h1
        · exact ih hv.2 h1 h2

lemma setPos_self {ps : List (ℕ × Pos)} {cid : ℕ} {p : Pos}
    (hnd : (keysOf ps).Nodup) (h : (cid, p) ∈ ps) : setPos ps cid p = ps := by
  unfold setPos
  rw [if_pos (mem_keysOf.mpr ⟨p, h⟩)]
  induction ps with
  | nil => cases h
  | cons kv t ih =>
      unfold keysOf at hnd
      simp only [List.map_cons, List.nodup_cons] at hnd
      simp only [List.map_cons]
      rcases List.mem_cons.mp h with h1 | h1
      · rw [← h1]
        simp only [if_pos rfl]
        congr 1
        have : ∀ kv' ∈ t, (if kv'.1 = cid then (cid, p) else kv') = kv' := by
          intro kv' hkv'
          rw [if_neg ?hne]
          case hne =>
            intro hEq
            apply hnd.1
            have hkc : kv.1 = cid := by rw [← h1]
            rw [hkc, ← hEq]
            exact List.mem_map_of_mem Prod.fst hkv'
        calc t.map (fun kv' => if kv'.1 = cid then (cid, p) else kv')
            = t.map id := List.map_congr_left this
        _ = t := List.map_id t
      · have hne : kv.1 ≠ cid := by
          intro hEq
          apply hnd.1
          rw [hEq]
          exact mem_keysOf.mpr ⟨p, h1⟩
        rw [if_neg hne]
        rw [ih hnd.2 h1]

lemma setPos_append {ps : List (ℕ × Pos)} {cid : ℕ} {p : Pos}
    (h : cid ∉ keysOf ps) : setPos ps cid p = ps ++ [(cid, p)] := by
  unfold setPos
  rw [if_neg h]

lemma cleanup_inv {s : SimState} (h : SimInv s) :
    SimInv (cleanupPhase s) ∧ (cleanupPhase s).pending = [] := by
  obtain ⟨h1, h2, h3, h4, h5, h6⟩ := h
  refine ⟨⟨?_, ?_, ?_, ?_, ?_, ?_⟩, rfl⟩
  · exact List.Nodup.sublist ((List.filter_sublist _).map _) h1
  · exact List.Nodup.sublist ((List.filter_sublist _).map _) h2
  · intro cid hcid
    exact h3 cid (((List.filter_sublist _).map _).subset hcid)
  · intro cid hcid
    obtain ⟨p, hp⟩ := mem_keysOf.mp (h4 cid hcid)
    refine mem_keysOf.mpr ⟨p, List.mem_filter.mpr ⟨hp, ?_⟩⟩
    simp only [decide_eq_true_eq]
    exact fun hpend => h6 cid hpend hcid
  · intro cid hcid
    cases hcid
  · intro cid hcid
    cases hcid

lemma wake_inv (cfg : SimConfig) (o : StepOracle) {s : SimState}
    (h : SimInv s) (hp : s.pending = []) :
    SimInv (wakePhase cfg o s) ∧ (wakePhase cfg o s).pending = [] := by
  have main : ∀ (l : List ℕ) (st : SimState), SimInv st → st.pending = [] →
      SimInv (l.foldl wakeBody st) ∧ (l.foldl wakeBody st).pending = [] := by
    intro l
    induction l with
    | nil => intro st hst hpend; exact ⟨hst, hpend⟩
    | cons cid rest ih =>
        intro st hst hpend
        simp only [List.foldl_cons]
        unfold wakeBody
        cases hlk : lookupPos st.positions cid with
        | none =>
            simp only [hlk]
            exact ih st hst hpend
        | some cpos =>
            simp only [hlk]
            refine ih _ ?_ hpend
            obtain ⟨h1, h2, h3, h4, h5, h6⟩ := hst
            have hmem := lookupPos_some_mem hlk
            have hset : setPos st.positions cid cpos = st.positions := setPos_self h1 hmem
            refine ⟨?_, ?_, ?_, ?_, ?_, ?_⟩
            · dsimp only; rw [hset]; exact h1
            · dsimp only; rw [hset]; exact h2
            · dsimp only; rw [hset]; exact h3
            · dsimp only
              rw [hset]
              intro c hc
              by_cases hin : cid ∈ st.active
              · rw [if_pos hin] at hc
                exact h4 c hc
              · rw [if_neg hin] at hc
                rcases List.mem_append.mp hc with h7 | h7
                · exact h4 c h7
                · have : c = cid := by simpa using h7
                  rw [this]
                  exact mem_keysOf.mpr ⟨cpos, hmem⟩
            · dsimp only
              rw [hset]
              rw [hpend]
              intro c hc
              cases hc
            · dsimp only
              rw [hpend]
              intro c hc
              cases hc
  unfold wakePhase withFreeRes
  dsimp only
  obtain ⟨⟨h1, h2, h3, h4, h5, h6⟩, hPend⟩ :=
    main (s.waiting.filter fun cid => decide (o.wakeDraw cid < cfg.initialActiveExitRate))
      { s with waiting := (List.filter
          (fun cid => !(decide (o.wakeDraw cid < cfg.initialActiveExitRate))) s.waiting) }
      ⟨h.1, h.2.1, h.2.2.1, h.2.2.2.1, h.2.2.2.2.1, h.2.2.2.2.2⟩ hp
  exact ⟨⟨h1, h2, h3, h4, h5, h6⟩, hPend⟩

lemma conflictResolve_revert (ids : List ℕ) (cur m : ℕ → Pos) (c : ℕ) :
    conflictResolve ids cur m c = m c ∨ conflictResolve ids cur m c = cur c := by
  unfold conflictResolve
  generalize ids.length = fuel
  induction fuel generalizing m with
  | zero => left; rfl
  | succ f ih =>
      unfold resolveLoopAux
      by_cases hch : roundChanged ids cur m = true
      · rw [if_pos hch]
        rcases ih (resolveRound ids cur m) with h | h
        · rcases resolveRound_revert ids cur m c with h2 | h2
          · rw [h, h2]; left; rfl
          · rw [h, h2]; right; rfl
        · right; exact h
      · rw [if_neg hch]; left; rfl

lemma withFreeRes_inv {s : SimState} (fr : Finset Pos × ReservationTable)
    (h : SimInv s) : SimInv (withFreeRes s fr) := h

lemma advanceIds_sub {s0 : SimState}
    (h4 : ∀ cid ∈ s0.active, cid ∈ keysOf s0.positions) :
    ∀ x ∈ advanceIds s0, x ∈ keysOf s0.positions := by
  intro x hx
  rcases List.mem_append.mp hx with h | h
  · exact h4 x h
  · exact (List.mem_filter.mp h).1

lemma keys_sub_advanceIds {s0 : SimState} :
    ∀ x ∈ keysOf s0.positions, x ∈ advanceIds s0 := by
  intro x hx
  by_cases hax : x ∈ s0.active
  · exact List.mem_append_left _ hax
  · exact List.mem_append_right _ (List.mem_filter.mpr ⟨hx, by simpa using hax⟩)

lemma advanceCur_of_mem {s0 : SimState} (h1 : (keysOf s0.positions).Nodup)
    {cid : ℕ} {p : Pos} (hm : (cid, p) ∈ s0.positions) : advanceCur s0 cid = p := by
  unfold advanceCur
  rw [lookupPos_mem_some h1 hm]
  rfl

lemma advanceCur_inj {s0 : SimState} (h1 : (keysOf s0.positions).Nodup)
    (h2 : (valuesOf s0.positions).Nodup)
    (h4 : ∀ cid ∈ s0.active, cid ∈ keysOf s0.positions) :
    ∀ x ∈ advanceIds s0, ∀ y ∈ advanceIds s0,
      advanceCur s0 x = advanceCur s0 y → x = y := by
  intro x hx y hy hcur
  obtain ⟨px, hpx⟩ := mem_keysOf.mp (advanceIds_sub h4 x hx)
  obtain ⟨py, hpy⟩ := mem_keysOf.mp (advanceIds_sub h4 y hy)
  rw [advanceCur_of_mem h1 hpx, advanceCur_of_mem h1 hpy] at hcur
  have := values_inj h2 hpx hpy hcur
  exact congrArg Prod.fst this

/-- At the committed fixpoint the resolved moves are injective on the
registered cars: the source's conflict resolution never lets two cars into
the same cell. -/
lemma advanceResolved_inj (o : StepOracle) {s0 : SimState}
    (h1 : (keysOf s0.positions).Nodup) (h2 : (valuesOf s0.positions).Nodup)
    (h4 : ∀ cid ∈ s0.active, cid ∈ keysOf s0.positions) :
    ∀ x ∈ keysOf s0.positions, ∀ y ∈ keysOf s0.positions,
      advanceResolved o s0 x = advanceResolved o s0 y → x = y := by
  intro x hx y hy hf
  exact fix_moves_inj (advanceIds s0) (advanceCur s0)
    (advanceResolved o s0) (advanceCur_inj h1 h2 h4)
    (conflictResolve_fix (advanceIds s0) (advanceCur s0) (advanceMoves o s0))
    x (keys_sub_advanceIds x hx) y (keys_sub_advanceIds y hy) hf

lemma advanceCommit_keys (o : StepOracle) (s0 : SimState) :
    keysOf (s0.positions.map
      (fun kv => if kv.1 ∈ s0.active then (kv.1, advanceResolved o s0 kv.1) else kv)) =
    keysOf s0.positions := by
  unfold keysOf
  rw [List.map_map]
  apply List.map_congr_left
  intro kv _
  simp only [Function.comp_apply]
  by_cases h : kv.1 ∈ s0.active
  · rw [if_pos h]
  · rw [if_neg h]

lemma advanceCommit_values (o : StepOracle) {s0 : SimState}
    (h1 : (keysOf s0.positions).Nodup) :
    valuesOf (s0.positions.map
      (fun kv => if kv.1 ∈ s0.active then (kv.1, advanceResolved o s0 kv.1) else kv)) =
    (keysOf s0.positions).map (advanceResolved o s0) := by
  unfold valuesOf keysOf
  rw [List.map_map, List.map_map]
  apply List.map_congr_left
  intro kv hkv
  simp only [Function.comp_apply]
  by_cases h : kv.1 ∈ s0.active
  · rw [if_pos h]
  · rw [if_neg h]
    have hm0 : advanceMoves o s0 kv.1 = advanceCur s0 kv.1 := by
      unfold advanceMoves
      rw [if_neg h]
    have hcur : advanceCur s0 kv.1 = kv.2 := advanceCur_of_mem h1 hkv
    rcases conflictResolve_revert (advanceIds s0) (advanceCur s0)
        (advanceMoves o s0) kv.1 with hr | hr
    · unfold advanceResolved
      rw [hr, hm0, hcur]
    · unfold advanceResolved
      rw [hr, hcur]

lemma advanceCommit_inv (o : StepOracle) (s0 : SimState) (h : SimInv s0) :
    SimInv { s0 with
      positions := s0.positions.map
        (fun kv => if kv.1 ∈ s0.active then (kv.1, advanceResolved o s0 kv.1) else kv),
      active := s0.active.filter (fun cid => !(o.deactivate cid)),
      pending := s0.pending ++ s0.active.filter
        (fun cid => o.deactivate cid && o.exitNow cid) } := by
  obtain ⟨h1, h2, h3, h4, h5, h6⟩ := h
  refine ⟨?_, ?_, ?_, ?_, ?_, ?_⟩
  · dsimp only
    rw [advanceCommit_keys]
    exact h1
  · dsimp only
    rw [advanceCommit_values o h1]
    exact List.Nodup.map_on (advanceResolved_inj o h1 h2 h4) h1
  · dsimp only
    rw [advanceCommit_keys]
    exact h3
  · dsimp only
    rw [advanceCommit_keys]
    intro cid hcid
    exact h4 cid (List.mem_filter.mp hcid).1
  · dsimp only
    rw [advanceCommit_keys]
    intro cid hcid
    rcases List.mem_append.mp hcid with hcp | hca
    · exact h5 cid hcp
    · exact h4 cid (List.mem_filter.mp hca).1
  · dsimp only
    intro cid hcid hact
    have hdeact : o.deactivate cid = false := by
      have := (List.mem_filter.mp hact).2
      simpa using this
    rcases List.mem_append.mp hcid with hcp | hca
    · exact h6 cid hcp (List.mem_filter.mp hact).1
    · have := (List.mem_filter.mp hca).2
      rw [hdeact] at this
      simp at this

lemma advance_inv (o : StepOracle) {s : SimState} (h : SimInv s) :
    SimInv (advancePhase o s) := by
  unfold advancePhase
  exact withFreeRes_inv _ (advanceCommit_inv o _ (withFreeRes_inv _ h))

lemma keysOf_append (ps qs : List (ℕ × Pos)) :
    keysOf (ps ++ qs) = keysOf ps ++ keysOf qs := by
  unfold keysOf
  rw [List.map_append]

lemma valuesOf_append (ps qs : List (ℕ × Pos)) :
    valuesOf (ps ++ qs) = valuesOf ps ++ valuesOf qs := by
  unfold valuesOf
  rw [List.map_append]

lemma arrival_inv (cfg : SimConfig) (o : StepOracle) {s : SimState}
    (h : SimInv s) : SimInv (arrivalPhase cfg o s) := by
  unfold arrivalPhase
  by_cases hg1 : cfg.maxArrivingCars ≤ s.arrivingCreated
  · rw [if_pos hg1]
    exact h
  · rw [if_neg hg1]
    by_cases hg2 : s.freeSpots = ∅
    · rw [if_pos hg2]
      exact h
    · rw [if_neg hg2]
      cases hge : getFreeEntry o.entryShuffle s.positions s.resTable s.time with
      | none => exact h
      | some e =>
          dsimp only
          by_cases hr : o.arrivalRand < cfg.arrivalLambda
          · rw [if_pos hr]
            obtain ⟨h1, h2, h3, h4, h5, h6⟩ := h
            have hfresh : s.nextCarId ∉ keysOf s.positions := by
              intro hmem
              exact absurd (h3 _ hmem) (lt_irrefl _)
            have hset1 : setPos s.positions s.nextCarId e =
                s.positions ++ [(s.nextCarId, e)] := setPos_append hfresh
            have hfound := List.find?_some hge
            have heval : e ∉ valuesOf s.positions := by
              unfold entryAdmissible at hfound
              rw [Bool.and_eq_true] at hfound
              exact of_decide_eq_true hfound.1
            have hkeys1 : keysOf (s.positions ++ [(s.nextCarId, e)]) =
                keysOf s.positions ++ [s.nextCarId] := keysOf_append _ _
            have hnd1 : (keysOf (s.positions ++ [(s.nextCarId, e)])).Nodup := by
              rw [hkeys1]
              rw [List.nodup_append]
              refine ⟨h1, List.nodup_singleton _, ?_⟩
              intro a ha hb
              have : a = s.nextCarId := by simpa using hb
              rw [this] at ha
              exact hfresh ha
            have hset2 : setPos (s.positions ++ [(s.nextCarId, e)]) s.nextCarId e =
                s.positions ++ [(s.nextCarId, e)] :=
              setPos_self hnd1 (List.mem_append_right _ (List.mem_singleton.mpr rfl))
            refine withFreeRes_inv _ ⟨?_, ?_, ?_, ?_, ?_, ?_⟩
            · dsimp only
              rw [hset1, hset2]
              exact hnd1
            · dsimp only
              rw [hset1, hset2, valuesOf_append]
              rw [List.nodup_append]
              refine ⟨h2, List.nodup_singleton _, ?_⟩
              intro v hv hv2
              have : v = e := by simpa [valuesOf] using hv2
              rw [this] at hv
              exact heval hv
            · dsimp only
              rw [hset1, hset2, hkeys1]
              intro cid hcid
              rcases List.mem_append.mp hcid with hc | hc
              · exact Nat.lt_succ_of_lt (h3 cid hc)
              · have : cid = s.nextCarId := by simpa using hc
                omega
            · dsimp only
              rw [hset1, hset2, hkeys1]
              intro cid hcid
              by_cases hin : s.nextCarId ∈ s.active
              · rw [if_pos hin] at hcid
                exact List.mem_append_left _ (h4 cid hcid)
              · rw [if_neg hin] at hcid
                rcases List.mem_append.mp hcid with hc | hc
                · exact List.mem_append_left _ (h4 cid hc)
                · have : cid = s.nextCarId := by simpa using hc
                  rw [this]
                  exact List.mem_append_right _ (List.mem_singleton.mpr rfl)
            · dsimp only
              rw [hset1, hset2, hkeys1]
              intro cid hcid
              exact List.mem_append_left _ (h5 cid hcid)
            · dsimp only
              intro cid hcid hact
              have hlt : cid < s.nextCarId := h3 cid (h5 cid hcid)
              by_cases hin : s.nextCarId ∈ s.active
              · rw [if_pos hin] at hact
                exact h6 cid hcid hact
              · rw [if_neg hin] at hact
                rcases List.mem_append.mp hact with hc | hc
                · exact h6 cid hcid hc
                · have : cid = s.nextCarId := by simpa using hc
                  omega
          · rw [if_neg hr]
            exact h

/-- One `step()` preserves the structural snapshot invariant. -/
lemma simStep_inv (cfg : SimConfig) (o : StepOracle) {s : SimState}
    (h : SimInv s) : SimInv (simStep cfg o s) := by
  unfold simStep
  dsimp only
  have h1 := cleanup_inv h
  have h2 := wake_inv cfg o h1.1 h1.2
  have h3 := advance_inv o h2.1
  have h4 := arrival_inv cfg o h3
  obtain ⟨g1, g2, g3, g4, g5, g6⟩ := h4
  exact ⟨g1, g2, g3, g4, g5, g6⟩

/-! ### C1: no two cars share a cell in any published snapshot

During `_initialize_cars` every drawn spot leaves `free_spots`, so the free
pool stays disjoint from the registered cells and the snapshot values stay
pairwise distinct; each `step()` preserves the snapshot invariant
(`simStep_inv`).  Distinct cars therefore never share any cell at all, so in
particular any shared cell is (vacuously) an EXIT cell. -/

/-- Construction-time invariant: the snapshot invariant plus disjointness of
the free pool from the registered cells. -/
def InitInv (s : SimState) : Prop :=
  SimInv s ∧ ∀ p ∈ s.freeSpots, p ∉ valuesOf s.positions

lemma freshKeys_nodup {s : SimState} (h1 : (keysOf s.positions).Nodup)
    (h3 : ∀ cid ∈ keysOf s.positions, cid < s.nextCarId) :
    (keysOf s.positions ++ [s.nextCarId]).Nodup := by
  rw [List.nodup_append]
  refine ⟨h1, List.nodup_singleton _, ?_⟩
  intro a ha hb
  have : a = s.nextCarId := by simpa using hb
  rw [this] at ha
  exact absurd (h3 _ ha) (lt_irrefl _)

lemma initParkedStep_inv {s : SimState} {pick : Pos}
    (h : InitInv s) (hpk : pick ∈ s.freeSpots) : InitInv (initParkedStep pick s) := by
  obtain ⟨⟨h1, h2, h3, h4, h5, h6⟩, hdisj⟩ := h
  unfold initParkedStep
  refine ⟨⟨?_, ?_, ?_, ?_, ?_, ?_⟩, ?_⟩
  · dsimp only
    rw [keysOf_append]
    exact freshKeys_nodup h1 h3
  · dsimp only
    rw [valuesOf_append, List.nodup_append]
    refine ⟨h2, List.nodup_singleton _, ?_⟩
    intro v hv hb
    have : v = pick := by simpa [valuesOf] using hb
    rw [this] at hv
    exact hdisj pick hpk hv
  · dsimp only
    rw [keysOf_append]
    intro cid hcid
    rcases List.mem_append.mp hcid with hc | hc
    · exact Nat.lt_succ_of_lt (h3 cid hc)
    · have : cid = s.nextCarId := by simpa [keysOf] using hc
      omega
  · dsimp only
    rw [keysOf_append]
    intro cid hcid
    exact List.mem_append_left _ (h4 cid hcid)
  · dsimp only
    rw [keysOf_append]
    intro cid hcid
    exact List.mem_append_left _ (h5 cid hcid)
  · exact h6
  · dsimp only
    intro p hp
    rw [valuesOf_append, List.mem_append]
    rintro (hv | hv)
    · exact hdisj p (Finset.mem_of_mem_erase hp) hv
    · have hpe : p = pick := by simpa [valuesOf] using hv
      exact absurd hpe (Finset.ne_of_mem_erase hp)

lemma initActiveStep_inv {s : SimState} {pick : Pos}
    (h : InitInv s) (hpk : pick ∈ s.freeSpots) : InitInv (initActiveStep pick s) := by
  obtain ⟨⟨h1, h2, h3, h4, h5, h6⟩, hdisj⟩ := h
  unfold initActiveStep
  refine ⟨⟨?_, ?_, ?_, ?_, ?_, ?_⟩, ?_⟩
  · dsimp only
    rw [keysOf_append]
    exact freshKeys_nodup h1 h3
  · dsimp only
    rw [valuesOf_append, List.nodup_append]
    refine ⟨h2, List.nodup_singleton _, ?_⟩
    intro v hv hb
    have : v = pick := by simpa [valuesOf] using hb
    rw [this] at hv
    exact hdisj pick hpk hv
  · dsimp only
    rw [keysOf_append]
    intro cid hcid
    rcases List.mem_append.mp hcid with hc | hc
    · exact Nat.lt_succ_of_lt (h3 cid hc)
    · have : cid = s.nextCarId := by simpa [keysOf] using hc
      omega
  · dsimp only
    rw [keysOf_append]
    intro cid hcid
    rcases List.mem_append.mp hcid with hc | hc
    · exact List.mem_append_left _ (h4 cid hc)
    · have : cid = s.nextCarId := by simpa using hc
      rw [this]
      refine List.mem_append_right _ ?_
      simp [keysOf]
  · dsimp only
    rw [keysOf_append]
    intro cid hcid
    exact List.mem_append_left _ (h5 cid hcid)
  · dsimp only
    intro cid hcid hact
    rcases List.mem_append.mp hact with hc | hc
    · exact h6 cid hcid hc
    · have : cid = s.nextCarId := by simpa using hc
      have hlt : cid < s.nextCarId := h3 cid (h5 cid hcid)
      omega
  · dsimp only
    intro p hp
    rw [valuesOf_append, List.mem_append]
    rintro (hv | hv)
    · exact hdisj p (Finset.mem_of_mem_erase hp) hv
    · have hpe : p = pick := by simpa [valuesOf] using hv
      exact absurd hpe (Finset.ne_of_mem_erase hp)

lemma initLoop_inv (stepF : Pos → SimState → SimState) (pick : ℕ → Finset Pos → Pos)
    (hstep : ∀ p s, InitInv s → p ∈ s.freeSpots → InitInv (stepF p s))
    (hpick : ∀ i fs, fs.Nonempty → pick i fs ∈ fs) :
    ∀ n s, InitInv s → InitInv (initLoop stepF pick n s) := by
  intro n
  induction n with
  | zero =>
      intro s h
      exact h
  | succ m ih =>
      intro s h
      unfold initLoop
      by_cases hfe : s.freeSpots = ∅
      · rw [if_pos hfe]
        exact h
      · rw [if_neg hfe]
        exact ih _ (hstep _ _ h (hpick m s.freeSpots (Finset.nonempty_iff_ne_empty.mpr hfe)))

lemma initCars_inv (cfg : SimConfig) (parkingCells : Finset Pos)
    (entryCells : List Pos) (pickP pickA : ℕ → Finset Pos → Pos)
    (hpickP : ∀ i fs, fs.Nonempty → pickP i fs ∈ fs)
    (hpickA : ∀ i fs, fs.Nonempty → pickA i fs ∈ fs) :
    InitInv (initCars cfg parkingCells entryCells pickP pickA) := by
  unfold initCars
  refine initLoop_inv _ _ (fun p s h hpk => initActiveStep_inv h hpk) hpickA _ _ ?_
  refine initLoop_inv _ _ (fun p s h hpk => initParkedStep_inv h hpk) hpickP _ _ ?_
  refine ⟨⟨?_, ?_, ?_, ?_, ?_, ?_⟩, ?_⟩ <;> simp [keysOf, valuesOf]

/-- Every state a run can reach satisfies the snapshot invariant; in
particular its registered cells are pairwise distinct. -/
lemma reachable_inv {cfg : SimConfig} {orc : ℕ → StepOracle} {s : SimState}
    (h : Reachable cfg orc s) : SimInv s := by
  induction h with
  | init parkingCells entryCells pickP pickA hpickP hpickA =>
      exact (initCars_inv cfg parkingCells entryCells pickP pickA hpickP hpickA).1
  | step s' _ ih =>
      exact simStep_inv cfg (orc s'.time) ih

/-- The claimed property: any cell shared by two distinct registered cars is
an EXIT cell of the grid. -/
def overlapOnlyAtExit (g : Grid) (s : SimState) : Prop :=
  ∀ a ∈ s.positions, ∀ b ∈ s.positions, a.1 ≠ b.1 → a.2 = b.2 →
    g.cellType a.2.1 a.2.2 = CellType.EXIT

/-- C1: after construction and after every `step()`, no two distinct cars of
the positions snapshot (active or parked) share a non-EXIT cell.  The model
proves the stronger fact that the registered cells are pairwise distinct, so
any hypothetical shared cell is vacuously an EXIT cell of any grid. -/
theorem no_overlap_outside_exit (cfg : SimConfig) (orc : ℕ → StepOracle)
    (g : Grid) (s : SimState) (h : Reachable cfg orc s) :
    overlapOnlyAtExit g s := by
  intro a ha b hb hne hab
  exact absurd (congrArg Prod.fst (values_inj (reachable_inv h).2.1 ha hb hab)) hne

/-- A concrete `random.choice` oracle: the lexicographically least member. -/
def somePick (_i : ℕ) (fs : Finset Pos) : Pos :=
  if h : fs.Nonempty then
    ofLex ((fs.image fun p => (toLex p : ℤ ×ₗ ℤ)).min' (h.image _))
  else ((0 : ℤ), (0 : ℤ))

lemma somePick_mem (i : ℕ) (fs : Finset Pos) (h : fs.Nonempty) : somePick i fs ∈ fs := by
  unfold somePick
  rw [dif_pos h]
  have hmin := Finset.min'_mem (fs.image fun p => (toLex p : ℤ ×ₗ ℤ)) (h.image _)
  obtain ⟨p, hp, hpe⟩ := Finset.mem_image.mp hmin
  rw [← hpe]
  exact hp

/-- A concrete do-nothing step oracle. -/
def witOrc : StepOracle :=
  { wakeDraw := fun _ => 0, intended := fun _ => ((0 : ℤ), (0 : ℤ)),
    deactivate := fun _ => false, exitNow := fun _ => false,
    entryShuffle := [], arrivalRand := 0,
    afterWake := fun s => (s.freeSpots, s.resTable),
    afterPlanning := fun s => (s.freeSpots, s.resTable),
    afterCommit := fun s => (s.freeSpots, s.resTable),
    afterArrival := fun s => (s.freeSpots, s.resTable) }

/-- A concrete configuration: one parked car, no arrivals. -/
def witCfg : SimConfig :=
  { planningHorizon := 0, goalReserveHorizon := 0, arrivalLambda := 0,
    maxArrivingCars := 0, initialParkedCars := 1, initialActiveCars := 0,
    initialActiveExitRate := 0 }

/-- C1 witness: the overlap theorem at the concrete freshly constructed
one-spot lot. -/
theorem no_overlap_outside_exit_witness :
    overlapOnlyAtExit witGrid
      (initCars witCfg {((0 : ℤ), (0 : ℤ))} [] somePick somePick) :=
  no_overlap_outside_exit witCfg (fun _ => witOrc) witGrid _
    (Reachable.init {((0 : ℤ), (0 : ℤ))} [] somePick somePick somePick_mem somePick_mem)

/-! ### C8: termination tick of `run()` with no arrivals and no active cars

`run()` always calls `step()` once before testing the stop condition, and
`step()` ends with `self.time += 1`, so the reported `final_time` is 1, not
0, in the claimed scenario. -/

lemma wakePhase_no_waiting (cfg : SimConfig) (o : StepOracle) {s : SimState}
    (hw : s.waiting = []) :
    (wakePhase cfg o s).active = s.active ∧ (wakePhase cfg o s).time = s.time := by
  unfold wakePhase withFreeRes
  rw [hw]
  exact ⟨rfl, rfl⟩

lemma advancePhase_facts (o : StepOracle) (s : SimState) :
    (advancePhase o s).time = s.time ∧
    (advancePhase o s).active = s.active.filter (fun cid => !(o.deactivate cid)) := by
  unfold advancePhase withFreeRes
  exact ⟨rfl, rfl⟩

lemma arrivalPhase_no_spawn (cfg : SimConfig) (o : StepOracle) {s : SimState}
    (h : ¬ o.arrivalRand < cfg.arrivalLambda) : arrivalPhase cfg o s = s := by
  unfold arrivalPhase
  by_cases h1 : cfg.maxArrivingCars ≤ s.arrivingCreated
  · rw [if_pos h1]
  · rw [if_neg h1]
    by_cases h2 : s.freeSpots = ∅
    · rw [if_pos h2]
    · rw [if_neg h2]
      cases getFreeEntry o.entryShuffle s.positions s.resTable s.time with
      | none => rfl
      | some e =>
          dsimp only
          rw [if_neg h]

/-- A concrete one-parked-car state with nothing active or waiting. -/
def witState : SimState :=
  { positions := [(0, ((0 : ℤ), (0 : ℤ)))], active := [], waiting := [],
    pending := [], freeSpots := ∅, resTable := ⟨∅, ∅, ∅⟩, entryCells := [],
    nextCarId := 1, time := 0, arrivingCreated := 0 }

/-- C8 counterexample: with `arrival_lambda = 0`, no active cars and only a
parked car, `run()` reports `final_time = 1`, not `0`: the loop body steps
(incrementing the clock) before the stop condition is evaluated. -/
theorem run_final_time_not_zero :
    (simRunAux witCfg (fun _ => witOrc) 1 witState).map SimState.time ≠ some 0 := by
  decide

/-- C8 (amended): with `arrival_lambda = 0`, an empty active set and no
waiting cars, and a non-negative arrival draw, `run()` stops right after its
first `step()`, reporting `final_time = initial time + 1`. -/
theorem run_terminates_first_tick (cfg : SimConfig) (orc : ℕ → StepOracle)
    (s : SimState) (fuel : ℕ) (hlam : cfg.arrivalLambda = 0) (ha : s.active = [])
    (hw : s.waiting = []) (hr : 0 ≤ (orc s.time).arrivalRand) :
    (simRunAux cfg orc (fuel + 1) s).map SimState.time = some (s.time + 1) := by
  have hnot : ¬ (orc s.time).arrivalRand < cfg.arrivalLambda := by
    rw [hlam]
    exact not_lt.mpr hr
  have hcw : (cleanupPhase s).waiting = [] := hw
  have h1 := wakePhase_no_waiting cfg (orc s.time) hcw
  have hadv := advancePhase_facts (orc s.time) (wakePhase cfg (orc s.time) (cleanupPhase s))
  have hns := arrivalPhase_no_spawn cfg (orc s.time)
    (s := advancePhase (orc s.time) (wakePhase cfg (orc s.time) (cleanupPhase s))) hnot
  have hstep_active : (simStep cfg (orc s.time) s).active = [] := by
    unfold simStep
    dsimp only
    rw [hns, hadv.2, h1.1]
    have hca : (cleanupPhase s).active = s.active := rfl
    rw [hca, ha]
    rfl
  have hstep_time : (simStep cfg (orc s.time) s).time = s.time + 1 := by
    unfold simStep
    dsimp only
    rw [hns, hadv.1, h1.2]
    rfl
  unfold simRunAux
  dsimp only
  rw [if_pos ⟨hstep_active, Or.inr hlam⟩]
  rw [Option.map_some']
  rw [hstep_time]

/-- C8 witness: the amended theorem at the concrete one-parked-car state. -/
theorem run_terminates_first_tick_witness :
    (simRunAux witCfg (fun _ => witOrc) 1 witState).map SimState.time = some 1 :=
  run_terminates_first_tick witCfg (fun _ => witOrc) witState 0 rfl rfl rfl (le_refl 0)

/-! ### C7: escalation on plan failure vs. escalation on block

`_advance_cars` lines 300-317 (plan failure) and lines 473-485 (blocked car).
The car fields touched by the handlers are embedded below; releasing the
assigned spot is reported as the Boolean component.  (`last_plan_fail_time`
and the plan cancellation do not interact with the escalation clauses and are
left out.) -/

inductive Intent where
  | PARK
  | EXIT
deriving DecidableEq

structure EscCar where
  intent : Intent
  goal : Option Pos
  planFailCount : ℕ
  blockedCount : ℕ
deriving DecidableEq

/-- Lines 300-317: on plan failure, `plan_fail_count` is incremented, then
(sequentially) the EXIT %5 goal re-randomization, the PARK %3 release+clear,
and the PARK ≥12 conversion to EXIT run. -/
def planFailEscalation (exits : List Pos) (pickExit : Pos) (assignRes : Option Pos)
    (c : EscCar) : EscCar × Bool :=
  let c1 := { c with planFailCount := c.planFailCount + 1 }
  let c2 := if c1.intent = Intent.EXIT ∧ c1.planFailCount % 5 = 0 ∧ exits ≠ []
            then { c1 with goal := some pickExit } else c1
  let c3 := if c2.intent = Intent.PARK ∧ c2.planFailCount % 3 = 0
            then { c2 with goal := none } else c2
  let r3 := decide (c2.intent = Intent.PARK ∧ c2.planFailCount % 3 = 0)
  let c4 := if c3.intent = Intent.PARK ∧ 12 ≤ c3.planFailCount
            then { c3 with intent := Intent.EXIT, goal := assignRes } else c3
  let r4 := decide (c3.intent = Intent.PARK ∧ 12 ≤ c3.planFailCount)
  (c4, r3 || r4)

/-- Lines 473-485: on a block (wanted to move but reverted), `blocked_count`
is incremented and ONLY the two PARK clauses run; there is no EXIT clause. -/
def blockedEscalation (assignRes : Option Pos) (c : EscCar) : EscCar × Bool :=
  let c1 := { c with blockedCount := c.blockedCount + 1 }
  let c2 := if c1.intent = Intent.PARK ∧ c1.blockedCount % 3 = 0
            then { c1 with goal := none } else c1
  let r2 := decide (c1.intent = Intent.PARK ∧ c1.blockedCount % 3 = 0)
  let c3 := if c2.intent = Intent.PARK ∧ 12 ≤ c2.blockedCount
            then { c2 with intent := Intent.EXIT, goal := assignRes } else c2
  let r3 := decide (c2.intent = Intent.PARK ∧ 12 ≤ c2.blockedCount)
  (c3, r2 || r3)

/-- The policy the claim asserts for blocks: the plan-failure policy keyed on
`blocked_count` with the same thresholds (this follows the claim's words, for
comparison with `blockedEscalation`). -/
def claimedBlockedPolicy (exits : List Pos) (pickExit : Pos) (assignRes : Option Pos)
    (c : EscCar) : EscCar × Bool :=
  let c1 := { c with blockedCount := c.blockedCount + 1 }
  let c2 := if c1.intent = Intent.EXIT ∧ c1.blockedCount % 5 = 0 ∧ exits ≠ []
            then { c1 with goal := some pickExit } else c1
  let c3 := if c2.intent = Intent.PARK ∧ c2.blockedCount % 3 = 0
            then { c2 with goal := none } else c2
  let r3 := decide (c2.intent = Intent.PARK ∧ c2.blockedCount % 3 = 0)
  let c4 := if c3.intent = Intent.PARK ∧ 12 ≤ c3.blockedCount
            then { c3 with intent := Intent.EXIT, goal := assignRes } else c3
  let r4 := decide (c3.intent = Intent.PARK ∧ 12 ≤ c3.blockedCount)
  (c4, r3 || r4)

/-- A blocked EXIT car whose incremented `blocked_count` is the positive
multiple 5. -/
def escWitCar : EscCar :=
  { intent := Intent.EXIT, goal := some ((7 : ℤ), (7 : ℤ)),
    planFailCount := 0, blockedCount := 4 }

/-- C7 counterexample: a blocked EXIT car reaching `blocked_count = 5` keeps
its goal under the code's block handler, while the claimed policy (plan-fail
policy keyed on `blocked_count`) would re-randomize it among the exit cells:
the two policies differ. -/
theorem blocked_exit_not_rerandomized :
    (blockedEscalation none escWitCar).1.blockedCount % 5 = 0 ∧
    (blockedEscalation none escWitCar).1.goal = some ((7 : ℤ), (7 : ℤ)) ∧
    (claimedBlockedPolicy [((9 : ℤ), (0 : ℤ))] ((9 : ℤ), (0 : ℤ)) none escWitCar).1.goal
      = some ((9 : ℤ), (0 : ℤ)) := by
  decide

/-- C7 (amended): the block handler increments `blocked_count` and applies
only the PARK clauses of the plan-failure policy — release+clear at positive
multiples of 3 and conversion to EXIT from 12 on — leaving a blocked EXIT
car's goal and intent untouched; the EXIT %5 re-randomization exists only in
the plan-failure handler. -/
theorem blocked_escalation_policy (assignRes : Option Pos) (c : EscCar) :
    (blockedEscalation assignRes c).1.blockedCount = c.blockedCount + 1 ∧
    (blockedEscalation assignRes c).1.planFailCount = c.planFailCount ∧
    (c.intent = Intent.EXIT →
      (blockedEscalation assignRes c).1.goal = c.goal ∧
      (blockedEscalation assignRes c).1.intent = Intent.EXIT ∧
      (blockedEscalation assignRes c).2 = false) ∧
    (c.intent = Intent.PARK →
      (12 ≤ c.blockedCount + 1 →
        (blockedEscalation assignRes c).1.intent = Intent.EXIT ∧
        (blockedEscalation assignRes c).1.goal = assignRes ∧
        (blockedEscalation assignRes c).2 = true) ∧
      ((c.blockedCount + 1) % 3 = 0 → c.blockedCount + 1 < 12 →
        (blockedEscalation assignRes c).1.goal = none ∧
        (blockedEscalation assignRes c).1.intent = Intent.PARK ∧
        (blockedEscalation assignRes c).2 = true) ∧
      ((c.blockedCount + 1) % 3 ≠ 0 → c.blockedCount + 1 < 12 →
        (blockedEscalation assignRes c).1 = { c with blockedCount := c.blockedCount + 1 } ∧
        (blockedEscalation assignRes c).2 = false)) := by
  unfold blockedEscalation
  dsimp only
  by_cases h2 : c.intent = Intent.PARK ∧ (c.blockedCount + 1) % 3 = 0
  · rw [if_pos h2, decide_eq_true h2]
    dsimp only
    by_cases h3 : c.intent = Intent.PARK ∧ 12 ≤ c.blockedCount + 1
    · rw [if_pos h3, decide_eq_true h3]
      refine ⟨rfl, rfl, ?_, ?_⟩
      · intro hexit
        rw [hexit] at h2
        cases h2.1
      · intro _
        refine ⟨?_, ?_, ?_⟩
        · intro _
          exact ⟨rfl, rfl, rfl⟩
        · intro _ hlt
          exact absurd h3.2 (by omega)
        · intro hmod _
          exact absurd h2.2 hmod
    · rw [if_neg h3, decide_eq_false h3]
      refine ⟨rfl, rfl, ?_, ?_⟩
      · intro hexit
        rw [hexit] at h2
        cases h2.1
      · intro hpark
        refine ⟨?_, ?_, ?_⟩
        · intro h12
          exact absurd ⟨hpark, h12⟩ h3
        · intro _ _
          exact ⟨rfl, hpark, rfl⟩
        · intro hmod _
          exact absurd h2.2 hmod
  · rw [if_neg h2, decide_eq_false h2]
    by_cases h3 : c.intent = Intent.PARK ∧ 12 ≤ c.blockedCount + 1
    · rw [if_pos h3, decide_eq_true h3]
      refine ⟨rfl, rfl, ?_, ?_⟩
      · intro hexit
        rw [hexit] at h3
        cases h3.1
      · intro _
        refine ⟨?_, ?_, ?_⟩
        · intro _
          exact ⟨rfl, rfl, rfl⟩
        · intro _ hlt
          exact absurd h3.2 (by omega)
        · intro _ hlt
          exact absurd h3.2 (by omega)
    · rw [if_neg h3, decide_eq_false h3]
      refine ⟨rfl, rfl, ?_, ?_⟩
      · intro hexit
        exact ⟨rfl, hexit, rfl⟩
      · intro hpark
        refine ⟨?_, ?_, ?_⟩
        · intro h12
          exact absurd ⟨hpark, h12⟩ h3
        · intro hmod _
          exact absurd ⟨hpark, hmod⟩ h2
        · intro _ _
          exact ⟨rfl, rfl⟩

/-- C7 witness: the amended theorem at the concrete blocked EXIT car. -/
theorem blocked_escalation_policy_witness :
    (blockedEscalation none escWitCar).1.goal = escWitCar.goal ∧
    (blockedEscalation none escWitCar).1.intent = Intent.EXIT ∧
    (blockedEscalation none escWitCar).2 = false :=
  (blocked_escalation_policy none escWitCar).2.2.1 rfl

/-! ### C5: conservation of parking cells in the parking manager

The manager state is `free_spots`, `assigned_spots` (dict car id → spot) and
`occupied_spots`; the model adds the ghost set `waitingSpots` holding the
spots consumed by `_initialize_cars` lines 111-112 for the waiting initial
active cars (the lines remove the drawn spot from `free_spots` without
registering it anywhere; `_process_waiting_active_cars` line 188 returns the
woken car's spot to `free_spots`).  The transitions mirror every mutation
site of the three sets, with the facts each call site guarantees as
hypotheses. -/

structure PM where
  free : Finset Pos
  assigned : List (ℕ × Pos)
  occupied : Finset Pos
  waitingSpots : Finset Pos
deriving DecidableEq

/-- set(assigned_spots.values()). -/
def assignedSet (m : PM) : Finset Pos := (valuesOf m.assigned).toFinset

/-- `create_parked_car` + `mark_occupied` (core lines 91-97, manager lines
26-32 and 79-81): the drawn spot leaves `free_spots` and enters
`occupied_spots` (the fresh car has no assignment to pop). -/
def pmCreateParked (s : Pos) (m : PM) : PM :=
  { m with free := m.free.erase s, occupied := insert s m.occupied }

/-- Core lines 111-112: the initial active car's spot is drawn and removed
from `free_spots` only; the ghost set records it. -/
def pmInitActive (s : Pos) (m : PM) : PM :=
  { m with free := m.free.erase s, waitingSpots := insert s m.waitingSpots }

/-- Core line 188: a woken waiting car's spot returns to `free_spots`. -/
def pmWake (s : Pos) (m : PM) : PM :=
  { m with waitingSpots := m.waitingSpots.erase s, free := insert s m.free }

/-- `choose_free_parking_spot` (manager lines 44-56): the chosen free spot
moves from `free_spots` into `assigned_spots[cid]`. -/
def pmAssign (cid : ℕ) (s : Pos) (m : PM) : PM :=
  { m with free := m.free.erase s, assigned := m.assigned ++ [(cid, s)] }

/-- `mark_occupied` (manager lines 79-81): pop the car's assignment and add
the spot to `occupied_spots`. -/
def pmMarkOccupied (cid : ℕ) (s : Pos) (m : PM) : PM :=
  { m with assigned := m.assigned.filter (fun kv => decide (kv.1 ≠ cid)),
           occupied := insert s m.occupied }

/-- `release_assigned_spot` (manager lines 83-89): pop the assignment if any;
the spot returns to `free_spots` unless occupied. -/
def pmRelease (cid : ℕ) (m : PM) : PM :=
  match lookupPos m.assigned cid with
  | none => m
  | some s =>
      { m with assigned := m.assigned.filter (fun kv => decide (kv.1 ≠ cid)),
               free := if s ∈ m.occupied then m.free else insert s m.free }

/-- The mutations of the parking sets, with the facts their call sites
guarantee: drawn spots are members of `free_spots`, a woken car's spot was a
waiting spot, `choose_free_parking_spot` only runs for a car without an
assignment (its goal is `None`, which release always precedes), and
`mark_occupied` runs at the car's assigned goal spot. -/
inductive PMStep : PM → PM → Prop
  | createParked (s : Pos) (m : PM) (hs : s ∈ m.free) : PMStep m (pmCreateParked s m)
  | initActive (s : Pos) (m : PM) (hs : s ∈ m.free) : PMStep m (pmInitActive s m)
  | wake (s : Pos) (m : PM) (hs : s ∈ m.waitingSpots) : PMStep m (pmWake s m)
  | assign (cid : ℕ) (s : Pos) (m : PM) (hs : s ∈ m.free)
      (hcid : cid ∉ keysOf m.assigned) : PMStep m (pmAssign cid s m)
  | markOccupied (cid : ℕ) (s : Pos) (m : PM) (hs : (cid, s) ∈ m.assigned) :
      PMStep m (pmMarkOccupied cid s m)
  | release (cid : ℕ) (m : PM) : PMStep m (pmRelease cid m)

/-- Manager construction (lines 12-14) and any number of mutations. -/
inductive PMReachable (cells : Finset Pos) : PM → Prop
  | init : PMReachable cells ⟨cells, [], ∅, ∅⟩
  | step {m m' : PM} (h : PMReachable cells m) (hs : PMStep m m') : PMReachable cells m'

/-- The claimed conservation, extended with the waiting spots. -/
def pmPartition (cells : Finset Pos) (m : PM) : Prop :=
  (Disjoint m.free (assignedSet m) ∧ Disjoint m.free m.occupied ∧
   Disjoint m.free m.waitingSpots ∧ Disjoint (assignedSet m) m.occupied ∧
   Disjoint (assignedSet m) m.waitingSpots ∧ Disjoint m.occupied m.waitingSpots) ∧
  m.free ∪ assignedSet m ∪ m.occupied ∪ m.waitingSpots = cells

def pmPointwise (cells : Finset Pos) (m : PM) (a : Pos) : Prop :=
  ((a ∈ m.free ∨ a ∈ assignedSet m ∨ a ∈ m.occupied ∨ a ∈ m.waitingSpots) ↔ a ∈ cells) ∧
  ¬ (a ∈ m.free ∧ a ∈ assignedSet m) ∧
  ¬ (a ∈ m.free ∧ a ∈ m.occupied) ∧
  ¬ (a ∈ m.free ∧ a ∈ m.waitingSpots) ∧
  ¬ (a ∈ assignedSet m ∧ a ∈ m.occupied) ∧
  ¬ (a ∈ assignedSet m ∧ a ∈ m.waitingSpots) ∧
  ¬ (a ∈ m.occupied ∧ a ∈ m.waitingSpots)

/-- The partition invariant, together with well-formedness of the assignment
dict (distinct cars, distinct spots). -/
def PMInv (cells : Finset Pos) (m : PM) : Prop :=
  (keysOf m.assigned).Nodup ∧ (valuesOf m.assigned).Nodup ∧ pmPartition cells m

lemma pmPartition_iff (cells : Finset Pos) (m : PM) :
    pmPartition cells m ↔ ∀ a, pmPointwise cells m a := by
  unfold pmPartition pmPointwise
  constructor
  · rintro ⟨⟨d1, d2, d3, d4, d5, d6⟩, hu⟩ a
    rw [Finset.disjoint_left] at d1 d2 d3 d4 d5 d6
    refine ⟨?_, ?_, ?_, ?_, ?_, ?_, ?_⟩
    · constructor
      · intro hmem
        rw [← hu]
        simp only [Finset.mem_union]
        tauto
      · intro hmem
        rw [← hu] at hmem
        simp only [Finset.mem_union] at hmem
        tauto
    · rintro ⟨g1, g2⟩
      exact d1 g1 g2
    · rintro ⟨g1, g2⟩
      exact d2 g1 g2
    · rintro ⟨g1, g2⟩
      exact d3 g1 g2
    · rintro ⟨g1, g2⟩
      exact d4 g1 g2
    · rintro ⟨g1, g2⟩
      exact d5 g1 g2
    · rintro ⟨g1, g2⟩
      exact d6 g1 g2
  · intro h
    refine ⟨⟨?_, ?_, ?_, ?_, ?_, ?_⟩, ?_⟩
    · rw [Finset.disjoint_left]
      intro a g1 g2
      exact (h a).2.1 ⟨g1, g2⟩
    · rw [Finset.disjoint_left]
      intro a g1 g2
      exact (h a).2.2.1 ⟨g1, g2⟩
    · rw [Finset.disjoint_left]
      intro a g1 g2
      exact (h a).2.2.2.1 ⟨g1, g2⟩
    · rw [Finset.disjoint_left]
      intro a g1 g2
      exact (h a).2.2.2.2.1 ⟨g1, g2⟩
    · rw [Finset.disjoint_left]
      intro a g1 g2
      exact (h a).2.2.2.2.2.1 ⟨g1, g2⟩
    · rw [Finset.disjoint_left]
      intro a g1 g2
      exact (h a).2.2.2.2.2.2 ⟨g1, g2⟩
    · apply Finset.ext
      intro a
      simp only [Finset.mem_union]
      have := (h a).1
      tauto

lemma mem_valuesOf {ps : List (ℕ × Pos)} {a : Pos} :
    a ∈ valuesOf ps ↔ ∃ kv ∈ ps, kv.2 = a := by
  unfold valuesOf
  exact List.mem_map

lemma mem_assignedSet_append {m : PM} {cid : ℕ} {s a : Pos} :
    a ∈ (valuesOf (m.assigned ++ [(cid, s)])).toFinset ↔ a ∈ assignedSet m ∨ a = s := by
  unfold assignedSet
  rw [List.mem_toFinset, List.mem_toFinset, valuesOf_append]
  rw [List.mem_append]
  constructor
  · rintro (h | h)
    · exact Or.inl h
    · right
      have : a ∈ [s] := h
      simpa using this
  · rintro (h | h)
    · exact Or.inl h
    · right
      rw [h]
      exact List.mem_singleton.mpr rfl

lemma keys_inj {ps : List (ℕ × Pos)} (hk : (keysOf ps).Nodup) {cid : ℕ} {x y : Pos}
    (hx : (cid, x) ∈ ps) (hy : (cid, y) ∈ ps) : x = y := by
  have h1 := lookupPos_mem_some hk hx
  have h2 := lookupPos_mem_some hk hy
  rw [h1] at h2
  exact (Option.some.injEq _ _).mp h2

lemma mem_assignedSet_erase_key {m : PM} {cid : ℕ} {s a : Pos}
    (hk : (keysOf m.assigned).Nodup) (hv : (valuesOf m.assigned).Nodup)
    (hmem : (cid, s) ∈ m.assigned) :
    a ∈ (valuesOf (m.assigned.filter (fun kv => decide (kv.1 ≠ cid)))).toFinset ↔
      a ∈ assignedSet m ∧ a ≠ s := by
  rw [List.mem_toFinset]
  unfold assignedSet
  rw [List.mem_toFinset]
  constructor
  · intro ha
    obtain ⟨kv, hkvmem, hkva⟩ := mem_valuesOf.mp ha
    obtain ⟨k, v⟩ := kv
    have hkvf := List.mem_filter.mp hkvmem
    have hkne : k ≠ cid := by simpa using hkvf.2
    refine ⟨mem_valuesOf.mpr ⟨(k, v), hkvf.1, hkva⟩, ?_⟩
    intro heq
    have : (k, v) = (cid, s) := values_inj hv hkvf.1 hmem (by rw [hkva, heq])
    exact hkne (congrArg Prod.fst this)
  · rintro ⟨ha, hne⟩
    obtain ⟨kv, hkvmem, hkva⟩ := mem_valuesOf.mp ha
    obtain ⟨k, v⟩ := kv
    refine mem_valuesOf.mpr ⟨(k, v), List.mem_filter.mpr ⟨hkvmem, ?_⟩, hkva⟩
    have hkne : k ≠ cid := by
      intro heq
      rw [heq] at hkvmem
      have := keys_inj hk hkvmem hmem
      rw [this] at hkva
      exact hne hkva.symm
    simpa using hkne

lemma pmInv_createParked {cells : Finset Pos} {m : PM} {s : Pos}
    (h : PMInv cells m) (hs : s ∈ m.free) : PMInv cells (pmCreateParked s m) := by
  obtain ⟨hk, hv, hp⟩ := h
  rw [pmPartition_iff] at hp
  refine ⟨hk, hv, ?_⟩
  rw [pmPartition_iff]
  intro a
  have ha := hp a
  have hsa := hp s
  unfold pmPointwise at ha hsa
  obtain ⟨hiff, h1, h2, h3, h4, h5, h6⟩ := ha
  obtain ⟨siff, s1, s2, s3, s4, s5, s6⟩ := hsa
  have eF : ∀ b : Pos, b ∈ (pmCreateParked s m).free ↔ (b ≠ s ∧ b ∈ m.free) :=
    fun b => Finset.mem_erase
  have eA : ∀ b : Pos, b ∈ assignedSet (pmCreateParked s m) ↔ b ∈ assignedSet m :=
    fun b => Iff.rfl
  have eO : ∀ b : Pos, b ∈ (pmCreateParked s m).occupied ↔ (b = s ∨ b ∈ m.occupied) :=
    fun b => Finset.mem_insert
  have eW : ∀ b : Pos, b ∈ (pmCreateParked s m).waitingSpots ↔ b ∈ m.waitingSpots :=
    fun b => Iff.rfl
  unfold pmPointwise
  rw [eF a, eA a, eO a, eW a]
  refine ⟨?_, ?_, ?_, ?_, ?_, ?_, ?_⟩
  · constructor
    · rintro (⟨hne, hF⟩ | hA | (heq | hO) | hW)
      · exact hiff.mp (Or.inl hF)
      · exact hiff.mp (Or.inr (Or.inl hA))
      · rw [heq]
        exact siff.mp (Or.inl hs)
      · exact hiff.mp (Or.inr (Or.inr (Or.inl hO)))
      · exact hiff.mp (Or.inr (Or.inr (Or.inr hW)))
    · intro hC
      by_cases heq : a = s
      · exact Or.inr (Or.inr (Or.inl (Or.inl heq)))
      · rcases hiff.mpr hC with hF | hA | hO | hW
        · exact Or.inl ⟨heq, hF⟩
        · exact Or.inr (Or.inl hA)
        · exact Or.inr (Or.inr (Or.inl (Or.inr hO)))
        · exact Or.inr (Or.inr (Or.inr hW))
  · rintro ⟨⟨hne, hF⟩, hA⟩
    exact h1 ⟨hF, hA⟩
  · rintro ⟨⟨hne, hF⟩, heq | hO⟩
    · exact hne heq
    · exact h2 ⟨hF, hO⟩
  · rintro ⟨⟨hne, hF⟩, hW⟩
    exact h3 ⟨hF, hW⟩
  · rintro ⟨hA, heq | hO⟩
    · rw [heq] at hA
      exact s1 ⟨hs, hA⟩
    · exact h4 ⟨hA, hO⟩
  · exact h5
  · rintro ⟨heq | hO, hW⟩
    · rw [heq] at hW
      exact s3 ⟨hs, hW⟩
    · exact h6 ⟨hO, hW⟩

lemma pmInv_initActive {cells : Finset Pos} {m : PM} {s : Pos}
    (h : PMInv cells m) (hs : s ∈ m.free) : PMInv cells (pmInitActive s m) := by
  obtain ⟨hk, hv, hp⟩ := h
  rw [pmPartition_iff] at hp
  refine ⟨hk, hv, ?_⟩
  rw [pmPartition_iff]
  intro a
  have ha := hp a
  have hsa := hp s
  unfold pmPointwise at ha hsa
  obtain ⟨hiff, h1, h2, h3, h4, h5, h6⟩ := ha
  obtain ⟨siff, s1, s2, s3, s4, s5, s6⟩ := hsa
  have eF : ∀ b : Pos, b ∈ (pmInitActive s m).free ↔ (b ≠ s ∧ b ∈ m.free) :=
    fun b => Finset.mem_erase
  have eA : ∀ b : Pos, b ∈ assignedSet (pmInitActive s m) ↔ b ∈ assignedSet m :=
    fun b => Iff.rfl
  have eO : ∀ b : Pos, b ∈ (pmInitActive s m).occupied ↔ b ∈ m.occupied :=
    fun b => Iff.rfl
  have eW : ∀ b : Pos, b ∈ (pmInitActive s m).waitingSpots ↔ (b = s ∨ b ∈ m.waitingSpots) :=
    fun b => Finset.mem_insert
  unfold pmPointwise
  rw [eF a, eA a, eO a, eW a]
  refine ⟨?_, ?_, ?_, ?_, ?_, ?_, ?_⟩
  · constructor
    · rintro (⟨hne, hF⟩ | hA | hO | (heq | hW))
      · exact hiff.mp (Or.inl hF)
      · exact hiff.mp (Or.inr (Or.inl hA))
      · exact hiff.mp (Or.inr (Or.inr (Or.inl hO)))
      · rw [heq]
        exact siff.mp (Or.inl hs)
      · exact hiff.mp (Or.inr (Or.inr (Or.inr hW)))
    · intro hC
      by_cases heq : a = s
      · exact Or.inr (Or.inr (Or.inr (Or.inl heq)))
      · rcases hiff.mpr hC with hF | hA | hO | hW
        · exact Or.inl ⟨heq, hF⟩
        · exact Or.inr (Or.inl hA)
        · exact Or.inr (Or.inr (Or.inl hO))
        · exact Or.inr (Or.inr (Or.inr (Or.inr hW)))
  · rintro ⟨⟨hne, hF⟩, hA⟩
    exact h1 ⟨hF, hA⟩
  · rintro ⟨⟨hne, hF⟩, hO⟩
    exact h2 ⟨hF, hO⟩
  · rintro ⟨⟨hne, hF⟩, heq | hW⟩
    · exact hne heq
    · exact h3 ⟨hF, hW⟩
  · rintro ⟨hA, hO⟩
    exact h4 ⟨hA, hO⟩
  · rintro ⟨hA, heq | hW⟩
    · rw [heq] at hA
      exact s1 ⟨hs, hA⟩
    · exact h5 ⟨hA, hW⟩
  · rintro ⟨hO, heq | hW⟩
    · rw [heq] at hO
      exact s2 ⟨hs, hO⟩
    · exact h6 ⟨hO, hW⟩

lemma pmInv_wake {cells : Finset Pos} {m : PM} {s : Pos}
    (h : PMInv cells m) (hs : s ∈ m.waitingSpots) : PMInv cells (pmWake s m) := by
  obtain ⟨hk, hv, hp⟩ := h
  rw [pmPartition_iff] at hp
  refine ⟨hk, hv, ?_⟩
  rw [pmPartition_iff]
  intro a
  have ha := hp a
  have hsa := hp s
  unfold pmPointwise at ha hsa
  obtain ⟨hiff, h1, h2, h3, h4, h5, h6⟩ := ha
  obtain ⟨siff, s1, s2, s3, s4, s5, s6⟩ := hsa
  have eF : ∀ b : Pos, b ∈ (pmWake s m).free ↔ (b = s ∨ b ∈ m.free) :=
    fun b => Finset.mem_insert
  have eA : ∀ b : Pos, b ∈ assignedSet (pmWake s m) ↔ b ∈ assignedSet m :=
    fun b => Iff.rfl
  have eO : ∀ b : Pos, b ∈ (pmWake s m).occupied ↔ b ∈ m.occupied :=
    fun b => Iff.rfl
  have eW : ∀ b : Pos, b ∈ (pmWake s m).waitingSpots ↔ (b ≠ s ∧ b ∈ m.waitingSpots) :=
    fun b => Finset.mem_erase
  unfold pmPointwise
  rw [eF a, eA a, eO a, eW a]
  refine ⟨?_, ?_, ?_, ?_, ?_, ?_, ?_⟩
  · constructor
    · rintro ((heq | hF) | hA | hO | ⟨hne, hW⟩)
      · rw [heq]
        exact siff.mp (Or.inr (Or.inr (Or.inr hs)))
      · exact hiff.mp (Or.inl hF)
      · exact hiff.mp (Or.inr (Or.inl hA))
      · exact hiff.mp (Or.inr (Or.inr (Or.inl hO)))
      · exact hiff.mp (Or.inr (Or.inr (Or.inr hW)))
    · intro hC
      by_cases heq : a = s
      · exact Or.inl (Or.inl heq)
      · rcases hiff.mpr hC with hF | hA | hO | hW
        · exact Or.inl (Or.inr hF)
        · exact Or.inr (Or.inl hA)
        · exact Or.inr (Or.inr (Or.inl hO))
        · exact Or.inr (Or.inr (Or.inr ⟨heq, hW⟩))
  · rintro ⟨heq | hF, hA⟩
    · rw [heq] at hA
      exact s5 ⟨hA, hs⟩
    · exact h1 ⟨hF, hA⟩
  · rintro ⟨heq | hF, hO⟩
    · rw [heq] at hO
      exact s6 ⟨hO, hs⟩
    · exact h2 ⟨hF, hO⟩
  · rintro ⟨heq | hF, hne, hW⟩
    · exact hne heq
    · exact h3 ⟨hF, hW⟩
  · rintro ⟨hA, hO⟩
    exact h4 ⟨hA, hO⟩
  · rintro ⟨hA, hne, hW⟩
    exact h5 ⟨hA, hW⟩
  · rintro ⟨hO, hne, hW⟩
    exact h6 ⟨hO, hW⟩

lemma pmInv_assign {cells : Finset Pos} {m : PM} {cid : ℕ} {s : Pos}
    (h : PMInv cells m) (hs : s ∈ m.free) (hcid : cid ∉ keysOf m.assigned) :
    PMInv cells (pmAssign cid s m) := by
  obtain ⟨hk, hv, hp⟩ := h
  rw [pmPartition_iff] at hp
  have hsA : s ∉ assignedSet m := by
    intro hmem
    exact (hp s).2.1 ⟨hs, hmem⟩
  refine ⟨?_, ?_, ?_⟩
  · unfold pmAssign
    dsimp only
    rw [keysOf_append, List.nodup_append]
    refine ⟨hk, List.nodup_singleton _, ?_⟩
    intro x hx hx2
    have : x = cid := by simpa [keysOf] using hx2
    rw [this] at hx
    exact hcid hx
  · unfold pmAssign
    dsimp only
    rw [valuesOf_append, List.nodup_append]
    refine ⟨hv, List.nodup_singleton _, ?_⟩
    intro x hx hx2
    have : x = s := by simpa [valuesOf] using hx2
    rw [this] at hx
    exact hsA (List.mem_toFinset.mpr hx)
  · rw [pmPartition_iff]
    intro a
    have ha := hp a
    have hsa := hp s
    unfold pmPointwise at ha hsa
    obtain ⟨hiff, h1, h2, h3, h4, h5, h6⟩ := ha
    obtain ⟨siff, s1, s2, s3, s4, s5, s6⟩ := hsa
    have eF : ∀ b : Pos, b ∈ (pmAssign cid s m).free ↔ (b ≠ s ∧ b ∈ m.free) :=
      fun b => Finset.mem_erase
    have eA : ∀ b : Pos, b ∈ assignedSet (pmAssign cid s m) ↔
        (b ∈ assignedSet m ∨ b = s) :=
      fun b => mem_assignedSet_append
    have eO : ∀ b : Pos, b ∈ (pmAssign cid s m).occupied ↔ b ∈ m.occupied :=
      fun b => Iff.rfl
    have eW : ∀ b : Pos, b ∈ (pmAssign cid s m).waitingSpots ↔ b ∈ m.waitingSpots :=
      fun b => Iff.rfl
    unfold pmPointwise
    rw [eF a, eA a, eO a, eW a]
    refine ⟨?_, ?_, ?_, ?_, ?_, ?_, ?_⟩
    · constructor
      · rintro (⟨hne, hF⟩ | (hA | heq) | hO | hW)
        · exact hiff.mp (Or.inl hF)
        · exact hiff.mp (Or.inr (Or.inl hA))
        · rw [heq]
          exact siff.mp (Or.inl hs)
        · exact hiff.mp (Or.inr (Or.inr (Or.inl hO)))
        · exact hiff.mp (Or.inr (Or.inr (Or.inr hW)))
      · intro hC
        by_cases heq : a = s
        · exact Or.inr (Or.inl (Or.inr heq))
        · rcases hiff.mpr hC with hF | hA | hO | hW
          · exact Or.inl ⟨heq, hF⟩
          · exact Or.inr (Or.inl (Or.inl hA))
          · exact Or.inr (Or.inr (Or.inl hO))
          · exact Or.inr (Or.inr (Or.inr hW))
    · rintro ⟨⟨hne, hF⟩, hA | heq⟩
      · exact h1 ⟨hF, hA⟩
      · exact hne heq
    · rintro ⟨⟨hne, hF⟩, hO⟩
      exact h2 ⟨hF, hO⟩
    · rintro ⟨⟨hne, hF⟩, hW⟩
      exact h3 ⟨hF, hW⟩
    · rintro ⟨hA | heq, hO⟩
      · exact h4 ⟨hA, hO⟩
      · rw [heq] at hO
        exact s2 ⟨hs, hO⟩
    · rintro ⟨hA | heq, hW⟩
      · exact h5 ⟨hA, hW⟩
      · rw [heq] at hW
        exact s3 ⟨hs, hW⟩
    · rintro ⟨hO, hW⟩
      exact h6 ⟨hO, hW⟩

lemma pmInv_markOccupied {cells : Finset Pos} {m : PM} {cid : ℕ} {s : Pos}
    (h : PMInv cells m) (hs : (cid, s) ∈ m.assigned) :
    PMInv cells (pmMarkOccupied cid s m) := by
  obtain ⟨hk, hv, hp⟩ := h
  rw [pmPartition_iff] at hp
  have hsA : s ∈ assignedSet m :=
    List.mem_toFinset.mpr (mem_valuesOf.mpr ⟨(cid, s), hs, rfl⟩)
  refine ⟨?_, ?_, ?_⟩
  · unfold pmMarkOccupied
    dsimp only
    exact List.Nodup.sublist ((List.filter_sublist _).map _) hk
  · unfold pmMarkOccupied
    dsimp only
    exact List.Nodup.sublist ((List.filter_sublist _).map _) hv
  · rw [pmPartition_iff]
    intro a
    have ha := hp a
    have hsa := hp s
    unfold pmPointwise at ha hsa
    obtain ⟨hiff, h1, h2, h3, h4, h5, h6⟩ := ha
    obtain ⟨siff, s1, s2, s3, s4, s5, s6⟩ := hsa
    have eF : ∀ b : Pos, b ∈ (pmMarkOccupied cid s m).free ↔ b ∈ m.free :=
      fun b => Iff.rfl
    have eA : ∀ b : Pos, b ∈ assignedSet (pmMarkOccupied cid s m) ↔
        (b ∈ assignedSet m ∧ b ≠ s) :=
      fun b => mem_assignedSet_erase_key hk hv hs
    have eO : ∀ b : Pos, b ∈ (pmMarkOccupied cid s m).occupied ↔
        (b = s ∨ b ∈ m.occupied) :=
      fun b => Finset.mem_insert
    have eW : ∀ b : Pos, b ∈ (pmMarkOccupied cid s m).waitingSpots ↔ b ∈ m.waitingSpots :=
      fun b => Iff.rfl
    unfold pmPointwise
    rw [eF a, eA a, eO a, eW a]
    refine ⟨?_, ?_, ?_, ?_, ?_, ?_, ?_⟩
    · constructor
      · rintro (hF | ⟨hA, hne⟩ | (heq | hO) | hW)
        · exact hiff.mp (Or.inl hF)
        · exact hiff.mp (Or.inr (Or.inl hA))
        · rw [heq]
          exact siff.mp (Or.inr (Or.inl hsA))
        · exact hiff.mp (Or.inr (Or.inr (Or.inl hO)))
        · exact hiff.mp (Or.inr (Or.inr (Or.inr hW)))
      · intro hC
        by_cases heq : a = s
        · exact Or.inr (Or.inr (Or.inl (Or.inl heq)))
        · rcases hiff.mpr hC with hF | hA | hO | hW
          · exact Or.inl hF
          · exact Or.inr (Or.inl ⟨hA, heq⟩)
          · exact Or.inr (Or.inr (Or.inl (Or.inr hO)))
          · exact Or.inr (Or.inr (Or.inr hW))
    · rintro ⟨hF, hA, hne⟩
      exact h1 ⟨hF, hA⟩
    · rintro ⟨hF, heq | hO⟩
      · rw [heq] at hF
        exact s1 ⟨hF, hsA⟩
      · exact h2 ⟨hF, hO⟩
    · rintro ⟨hF, hW⟩
      exact h3 ⟨hF, hW⟩
    · rintro ⟨⟨hA, hne⟩, heq | hO⟩
      · exact hne heq
      · exact h4 ⟨hA, hO⟩
    · rintro ⟨⟨hA, hne⟩, hW⟩
      exact h5 ⟨hA, hW⟩
    · rintro ⟨heq | hO, hW⟩
      · rw [heq] at hW
        exact s5 ⟨hsA, hW⟩
      · exact h6 ⟨hO, hW⟩

lemma pmInv_release {cells : Finset Pos} {m : PM} (cid : ℕ)
    (h : PMInv cells m) : PMInv cells (pmRelease cid m) := by
  obtain ⟨hk, hv, hp⟩ := h
  cases hlk : lookupPos m.assigned cid with
  | none =>
      have hrel : pmRelease cid m = m := by
        unfold pmRelease
        rw [hlk]
      rw [hrel]
      exact ⟨hk, hv, hp⟩
  | some s =>
      have hs := lookupPos_some_mem hlk
      rw [pmPartition_iff] at hp
      have hsA : s ∈ assignedSet m :=
        List.mem_toFinset.mpr (mem_valuesOf.mpr ⟨(cid, s), hs, rfl⟩)
      have hsocc : s ∉ m.occupied := fun hocc => (hp s).2.2.2.2.1 ⟨hsA, hocc⟩
      have hrel : pmRelease cid m =
          { m with assigned := m.assigned.filter (fun kv => decide (kv.1 ≠ cid)),
                   free := insert s m.free } := by
        unfold pmRelease
        rw [hlk]
        dsimp only
        rw [if_neg hsocc]
      refine ⟨?_, ?_, ?_⟩
      · rw [hrel]
        dsimp only
        exact List.Nodup.sublist ((List.filter_sublist _).map _) hk
      · rw [hrel]
        dsimp only
        exact List.Nodup.sublist ((List.filter_sublist _).map _) hv
      · rw [pmPartition_iff]
        intro a
        have ha := hp a
        have hsa := hp s
        unfold pmPointwise at ha hsa
        obtain ⟨hiff, h1, h2, h3, h4, h5, h6⟩ := ha
        obtain ⟨siff, s1, s2, s3, s4, s5, s6⟩ := hsa
        have eF : ∀ b : Pos, b ∈ (pmRelease cid m).free ↔ (b = s ∨ b ∈ m.free) := by
          intro b
          rw [hrel]
          exact Finset.mem_insert
        have eA : ∀ b : Pos, b ∈ assignedSet (pmRelease cid m) ↔
            (b ∈ assignedSet m ∧ b ≠ s) := by
          intro b
          rw [hrel]
          exact mem_assignedSet_erase_key hk hv hs
        have eO : ∀ b : Pos, b ∈ (pmRelease cid m).occupied ↔ b ∈ m.occupied := by
          intro b
          rw [hrel]
        have eW : ∀ b : Pos, b ∈ (pmRelease cid m).waitingSpots ↔ b ∈ m.waitingSpots := by
          intro b
          rw [hrel]
        unfold pmPointwise
        rw [eF a, eA a, eO a, eW a]
        refine ⟨?_, ?_, ?_, ?_, ?_, ?_, ?_⟩
        · constructor
          · rintro ((heq | hF) | ⟨hA, hne⟩ | hO | hW)
            · rw [heq]
              exact siff.mp (Or.inr (Or.inl hsA))
            · exact hiff.mp (Or.inl hF)
            · exact hiff.mp (Or.inr (Or.inl hA))
            · exact hiff.mp (Or.inr (Or.inr (Or.inl hO)))
            · exact hiff.mp (Or.inr (Or.inr (Or.inr hW)))
          · intro hC
            by_cases heq : a = s
            · exact Or.inl (Or.inl heq)
            · rcases hiff.mpr hC with hF | hA | hO | hW
              · exact Or.inl (Or.inr hF)
              · exact Or.inr (Or.inl ⟨hA, heq⟩)
              · exact Or.inr (Or.inr (Or.inl hO))
              · exact Or.inr (Or.inr (Or.inr hW))
        · rintro ⟨heq | hF, hA, hne⟩
          · exact hne heq
          · exact h1 ⟨hF, hA⟩
        · rintro ⟨heq | hF, hO⟩
          · rw [heq] at hO
            exact hsocc hO
          · exact h2 ⟨hF, hO⟩
        · rintro ⟨heq | hF, hW⟩
          · rw [heq] at hW
            exact s5 ⟨hsA, hW⟩
          · exact h3 ⟨hF, hW⟩
        · rintro ⟨⟨hA, hne⟩, hO⟩
          exact h4 ⟨hA, hO⟩
        · rintro ⟨⟨hA, hne⟩, hW⟩
          exact h5 ⟨hA, hW⟩
        · rintro ⟨hO, hW⟩
          exact h6 ⟨hO, hW⟩

/-- C5 (amended): throughout construction and all manager mutations,
`free_spots`, the assigned spots, `occupied_spots` and the waiting initial
active cars' spots are pairwise disjoint and together partition
`parking_cells`. -/
theorem parking_conservation (cells : Finset Pos) (m : PM)
    (h : PMReachable cells m) : PMInv cells m := by
  induction h with
  | init =>
      refine ⟨List.nodup_nil, List.nodup_nil, ?_⟩
      rw [pmPartition_iff]
      intro a
      unfold pmPointwise assignedSet
      simp [valuesOf]
  | step h hs ih =>
      cases hs with
      | createParked s m hmem => exact pmInv_createParked ih hmem
      | initActive s m hmem => exact pmInv_initActive ih hmem
      | wake s m hmem => exact pmInv_wake ih hmem
      | assign cid s m hmem hcid => exact pmInv_assign ih hmem hcid
      | markOccupied cid s m hmem => exact pmInv_markOccupied ih hmem
      | release cid m => exact pmInv_release cid ih

/-- C5 counterexample: on a one-cell lot, drawing the spot for a waiting
initial active car (`_initialize_cars` lines 111-112) empties `free_spots`
without registering the spot in `assigned_spots` or `occupied_spots`: the
union of the three claimed sets no longer equals `parking_cells`. -/
theorem parking_conservation_violated :
    PMReachable {((0 : ℤ), (0 : ℤ))}
      (pmInitActive ((0 : ℤ), (0 : ℤ)) ⟨{((0 : ℤ), (0 : ℤ))}, [], ∅, ∅⟩) ∧
    (pmInitActive ((0 : ℤ), (0 : ℤ)) ⟨{((0 : ℤ), (0 : ℤ))}, [], ∅, ∅⟩).free ∪
      assignedSet (pmInitActive ((0 : ℤ), (0 : ℤ)) ⟨{((0 : ℤ), (0 : ℤ))}, [], ∅, ∅⟩) ∪
      (pmInitActive ((0 : ℤ), (0 : ℤ)) ⟨{((0 : ℤ), (0 : ℤ))}, [], ∅, ∅⟩).occupied
      ≠ {((0 : ℤ), (0 : ℤ))} :=
  ⟨PMReachable.step PMReachable.init
      (PMStep.initActive ((0 : ℤ), (0 : ℤ)) ⟨{((0 : ℤ), (0 : ℤ))}, [], ∅, ∅⟩ (by decide)),
   by decide⟩

/-- C5 witness: the amended conservation theorem after parking one car on a
two-cell lot. -/
theorem parking_conservation_witness :
    PMInv {((0 : ℤ), (0 : ℤ)), ((1 : ℤ), (0 : ℤ))}
      (pmCreateParked ((0 : ℤ), (0 : ℤ))
        ⟨{((0 : ℤ), (0 : ℤ)), ((1 : ℤ), (0 : ℤ))}, [], ∅, ∅⟩) :=
  parking_conservation _ _
    (PMReachable.step PMReachable.init
      (PMStep.createParked ((0 : ℤ), (0 : ℤ))
        ⟨{((0 : ℤ), (0 : ℤ)), ((1 : ℤ), (0 : ℤ))}, [], ∅, ∅⟩ (by decide)))

end ParkingSim
